import Mathlib

/-!
Verification development for the FaultMap node-ranking core.

The Python source (src/ranking/formatmatrices.py, src/ranking/noderank.py)
is shallowly embedded here.  Matrices become functions `Nat → Nat → ℚ`
together with an explicit dimension, numpy floats become exact rationals,
networkx digraphs become an explicit structure recording node insertion
order and the edge list, and the in-place mutation performed by `buildcase`
is modelled by explicit state passing.  The eigendecomposition performed by
`np.linalg.eig` is kept abstract: it enters `calc_simple_rank` as oracle
data (`EigData`), and theorems quantify over it.
-/

namespace FaultMap

/-- A networkx-style directed graph: `nodes` is the node list in insertion
order (no duplicates for well-formed graphs), `edges` the list of
`(source, target, weight)` triples, at most one per `(source, target)` key
for well-formed graphs. -/
structure DiGraph where
  nodes : List String
  edges : List (String × String × ℚ)
deriving DecidableEq, Repr

/-- networkx node insertion: append the node if it is not present. -/
def addNode (g : DiGraph) (v : String) : DiGraph :=
  if v ∈ g.nodes then g else { g with nodes := g.nodes ++ [v] }

/-- Set the weight of the `(u, v)` edge in an edge list: replace the first
occurrence of the key, or append a fresh triple (networkx `add_edge` edge
part). -/
def setEdgeWeight : List (String × String × ℚ) → String → String → ℚ →
    List (String × String × ℚ)
  | [], u, v, w => [(u, v, w)]
  | e :: es, u, v, w =>
      if e.1 = u ∧ e.2.1 = v then (u, v, w) :: es
      else e :: setEdgeWeight es u v w

/-- The networkx `add_edge(u, v, weight=w)` operation: insert both endpoints as nodes
(source first), then set the edge weight. -/
def addEdge (g : DiGraph) (u v : String) (w : ℚ) : DiGraph :=
  let g1 := addNode (addNode g u) v
  { g1 with edges := setEdgeWeight g1.edges u v w }

/-- Number of edges leaving `v` in an edge list. -/
def srcCount (es : List (String × String × ℚ)) (v : String) : Nat :=
  (es.filter (fun e => e.1 == v)).length

/-- networkx `out_degree`. -/
def outDegree (g : DiGraph) (v : String) : Nat :=
  srcCount g.edges v

/-- The stored edge triple for key `(u, v)`, if any. -/
def findEdge (g : DiGraph) (u v : String) : Option (String × String × ℚ) :=
  g.edges.find? (fun e => e.1 == u && e.2.1 == v)

/-- Edge presence (the entries of `nx.to_numpy_matrix(..., weight=None)`). -/
def hasEdge (g : DiGraph) (u v : String) : Bool :=
  (findEdge g u v).isSome

/-- Edge weight lookup, `0` when the edge is absent (the entries of
`nx.to_numpy_matrix(..., weight='weight')`). -/
def edgeWeight (g : DiGraph) (u v : String) : ℚ :=
  ((findEdge g u v).map (fun e => e.2.2)).getD 0

/-- Well-formedness facts that hold for every networkx digraph: nodes are
distinct and every edge endpoint is a registered node. -/
def WF (g : DiGraph) : Prop :=
  g.nodes.Nodup ∧ ∀ e ∈ g.edges, e.1 ∈ g.nodes ∧ e.2.1 ∈ g.nodes

/-! ### Basic lemmas about the graph primitives -/

theorem addNode_nodes_of_mem {g : DiGraph} {v : String} (h : v ∈ g.nodes) :
    addNode g v = g := by
  simp [addNode, h]

theorem addNode_nodes_of_not_mem {g : DiGraph} {v : String}
    (h : v ∉ g.nodes) :
    addNode g v = { g with nodes := g.nodes ++ [v] } := by
  simp [addNode, h]

theorem addNode_edges (g : DiGraph) (v : String) :
    (addNode g v).edges = g.edges := by
  unfold addNode; split <;> rfl

theorem mem_addNode {g : DiGraph} {v x : String} :
    x ∈ (addNode g v).nodes ↔ x ∈ g.nodes ∨ x = v := by
  by_cases h : v ∈ g.nodes
  · rw [addNode_nodes_of_mem h]
    exact ⟨Or.inl, fun hc => hc.elim id (fun e => e ▸ h)⟩
  · rw [addNode_nodes_of_not_mem h]
    simp

theorem setEdgeWeight_of_not_mem {es : List (String × String × ℚ)}
    {u v : String} (w : ℚ)
    (h : ∀ e ∈ es, ¬(e.1 = u ∧ e.2.1 = v)) :
    setEdgeWeight es u v w = es ++ [(u, v, w)] := by
  induction es with
  | nil => rfl
  | cons e es ih =>
      have he := h e (List.mem_cons_self _ _)
      simp only [setEdgeWeight, if_neg he, List.cons_append]
      rw [ih (fun e' he' => h e' (List.mem_cons_of_mem _ he'))]

theorem mem_setEdgeWeight {es : List (String × String × ℚ)}
    {u v : String} {w : ℚ} {e : String × String × ℚ}
    (h : e ∈ setEdgeWeight es u v w) : e ∈ es ∨ e = (u, v, w) := by
  induction es with
  | nil => simpa [setEdgeWeight] using h
  | cons e' es ih =>
      simp only [setEdgeWeight] at h
      split at h
      · rcases List.mem_cons.mp h with h1 | h1
        · exact Or.inr h1
        · exact Or.inl (List.mem_cons_of_mem _ h1)
      · rcases List.mem_cons.mp h with h1 | h1
        · exact Or.inl (h1 ▸ List.mem_cons_self _ _)
        · rcases ih h1 with h2 | h2
          · exact Or.inl (List.mem_cons_of_mem _ h2)
          · exact Or.inr h2

theorem setEdgeWeight_filter_src_ne {es : List (String × String × ℚ)}
    {u v : String} {w : ℚ} {y : String} (hy : y ≠ u) :
    (setEdgeWeight es u v w).filter (fun e => e.1 == y) =
      es.filter (fun e => e.1 == y) := by
  have hu : ((u == y) : Bool) = false := beq_eq_false_iff_ne.mpr (Ne.symm hy)
  induction es with
  | nil => simp [setEdgeWeight, hu]
  | cons e es ih =>
      simp only [setEdgeWeight]
      by_cases h : e.1 = u ∧ e.2.1 = v
      · rw [if_pos h]
        have he : ((e.1 == y) : Bool) = false := by rw [h.1]; exact hu
        simp [List.filter_cons, hu, he]
      · rw [if_neg h]
        simp only [List.filter_cons]
        cases hcase : ((e.1 == y) : Bool) <;> simp [hcase, ih]

theorem find?_setEdgeWeight_ne {es : List (String × String × ℚ)}
    {u v a b : String} {w : ℚ} (hne : ¬(a = u ∧ b = v)) :
    (setEdgeWeight es u v w).find? (fun e => e.1 == a && e.2.1 == b) =
      es.find? (fun e => e.1 == a && e.2.1 == b) := by
  have hkey : ((u == a && v == b) : Bool) = false := by
    rcases Decidable.em (a = u) with h' | h'
    · have hb : v ≠ b := fun hb => hne ⟨h', hb.symm⟩
      simp [beq_eq_false_iff_ne.mpr hb]
    · simp [beq_eq_false_iff_ne.mpr (Ne.symm h')]
  induction es with
  | nil => simp [setEdgeWeight, List.find?, hkey]
  | cons e es ih =>
      simp only [setEdgeWeight]
      by_cases h : e.1 = u ∧ e.2.1 = v
      · rw [if_pos h]
        have he : ((e.1 == a && e.2.1 == b) : Bool) = false := by
          rw [h.1, h.2]; exact hkey
        simp [List.find?, hkey, he]
      · rw [if_neg h]
        simp only [List.find?]
        cases hcase : ((e.1 == a && e.2.1 == b) : Bool) <;> simp [hcase, ih]

theorem find?_setEdgeWeight_self (es : List (String × String × ℚ))
    (u v : String) (w : ℚ) :
    (setEdgeWeight es u v w).find? (fun e => e.1 == u && e.2.1 == v) =
      some (u, v, w) := by
  induction es with
  | nil => simp [setEdgeWeight, List.find?]
  | cons e es ih =>
      simp only [setEdgeWeight]
      by_cases h : e.1 = u ∧ e.2.1 = v
      · rw [if_pos h]
        simp [List.find?]
      · rw [if_neg h]
        have hfalse : ((e.1 == u && e.2.1 == v) : Bool) = false := by
          rcases Decidable.em (e.1 = u) with h' | h'
          · have hb : e.2.1 ≠ v := fun hb => h ⟨h', hb⟩
            simp [beq_eq_false_iff_ne.mpr hb]
          · simp [beq_eq_false_iff_ne.mpr h']
        simp [List.find?, hfalse, ih]

theorem findEdge_addEdge_ne {g : DiGraph} {u v a b : String} {w : ℚ}
    (hne : ¬(a = u ∧ b = v)) :
    findEdge (addEdge g u v w) a b = findEdge g a b := by
  simp only [findEdge, addEdge, addNode_edges]
  exact find?_setEdgeWeight_ne hne

theorem findEdge_addEdge_self (g : DiGraph) (u v : String) (w : ℚ) :
    findEdge (addEdge g u v w) u v = some (u, v, w) := by
  simp only [findEdge, addEdge, addNode_edges]
  exact find?_setEdgeWeight_self _ _ _ _

theorem mem_addEdge {g : DiGraph} {u v x : String} {w : ℚ} :
    x ∈ (addEdge g u v w).nodes ↔ x ∈ g.nodes ∨ x = u ∨ x = v := by
  simp only [addEdge, mem_addNode]
  tauto

theorem outDegree_addEdge_ne {g : DiGraph} {u v y : String} {w : ℚ}
    (hy : y ≠ u) :
    outDegree (addEdge g u v w) y = outDegree g y := by
  simp only [outDegree, addEdge, srcCount, addNode_edges]
  rw [setEdgeWeight_filter_src_ne hy]

/-! ### `buildgraph` (formatmatrices.py) -/

/-- numpy matrix transpose `.T`. -/
def transposeM (a : Nat → Nat → ℚ) : Nat → Nat → ℚ := fun r c => a c r

/-- The body of `buildgraph`'s double loop, applied to one
`(column, row)` pair of `enumerate(varlist)`: when
`connections[row, col] != 0` add the edge `colvar → rowvar` with weight
`gainmatrix[row, col]`. -/
def bgStep (gainmatrix connections : Nat → Nat → ℚ) (g : DiGraph)
    (p : (Nat × String) × Nat × String) : DiGraph :=
  if connections p.2.1 p.1.1 ≠ 0 then
    addEdge g p.1.2 p.2.2 (gainmatrix p.2.1 p.1.1)
  else g

/-- Embedding of `buildgraph(varlist, gainmatrix, connections)`: start from an empty
digraph and run the nested `enumerate` loops (outer over columns, inner
over rows). -/
def buildgraph (varlist : List String)
    (gainmatrix connections : Nat → Nat → ℚ) : DiGraph :=
  varlist.enum.foldl (fun g colp =>
    varlist.enum.foldl (fun g2 rowp =>
      bgStep gainmatrix connections g2 (colp, rowp)) g) ⟨[], []⟩

/-- The `(column, row)` pairs visited by `buildgraph`, in visit order. -/
def bgPairs (varlist : List String) :
    List ((Nat × String) × Nat × String) :=
  varlist.enum.flatMap (fun colp =>
    varlist.enum.map (fun rowp => (colp, rowp)))

theorem foldl_flatMap_eq {α β γ : Type} (L : List α) (f : α → List β)
    (step : γ → β → γ) (init : γ) :
    (L.flatMap f).foldl step init =
      L.foldl (fun acc x => (f x).foldl step acc) init := by
  induction L generalizing init with
  | nil => rfl
  | cons x L ih => simp only [List.flatMap_cons, List.foldl_append,
      List.foldl_cons, ih]

theorem buildgraph_eq_pairFold (varlist : List String)
    (gainmatrix connections : Nat → Nat → ℚ) :
    buildgraph varlist gainmatrix connections =
      (bgPairs varlist).foldl (bgStep gainmatrix connections) ⟨[], []⟩ := by
  unfold buildgraph bgPairs
  rw [foldl_flatMap_eq]
  congr 1
  funext acc colp
  rw [List.foldl_map]

theorem pairFold_mem_nodes (gainmatrix connections : Nat → Nat → ℚ) :
    ∀ (ps : List ((Nat × String) × Nat × String)) (g : DiGraph) (v : String),
    v ∈ (ps.foldl (bgStep gainmatrix connections) g).nodes ↔
      v ∈ g.nodes ∨
        ∃ p ∈ ps, connections p.2.1 p.1.1 ≠ 0 ∧ (v = p.1.2 ∨ v = p.2.2) := by
  intro ps
  induction ps with
  | nil => simp
  | cons p ps ih =>
      intro g v
      simp only [List.foldl_cons]
      rw [ih]
      have hcons : (∃ q ∈ p :: ps,
            connections q.2.1 q.1.1 ≠ 0 ∧ (v = q.1.2 ∨ v = q.2.2)) ↔
          (connections p.2.1 p.1.1 ≠ 0 ∧ (v = p.1.2 ∨ v = p.2.2)) ∨
          ∃ q ∈ ps, connections q.2.1 q.1.1 ≠ 0 ∧ (v = q.1.2 ∨ v = q.2.2) := by
        constructor
        · rintro ⟨q, hq, hrest⟩
          rcases List.mem_cons.mp hq with rfl | hq'
          · exact Or.inl hrest
          · exact Or.inr ⟨q, hq', hrest⟩
        · rintro (h | ⟨q, hq, hrest⟩)
          · exact ⟨p, List.mem_cons_self _ _, h⟩
          · exact ⟨q, List.mem_cons_of_mem _ hq, hrest⟩
      rw [hcons]
      by_cases hc : connections p.2.1 p.1.1 ≠ 0
      · simp only [bgStep, if_pos hc]
        rw [mem_addEdge]
        constructor
        · rintro ((h | h) | h)
          · exact Or.inl h
          · exact Or.inr (Or.inl ⟨hc, h⟩)
          · exact Or.inr (Or.inr h)
        · rintro (h | (⟨-, h⟩ | h))
          · exact Or.inl (Or.inl h)
          · exact Or.inl (Or.inr h)
          · exact Or.inr h
      · simp only [bgStep, if_neg hc]
        constructor
        · rintro (h | h)
          · exact Or.inl h
          · exact Or.inr (Or.inr h)
        · rintro (h | (⟨hq, -⟩ | h))
          · exact Or.inl h
          · exact absurd hq hc
          · exact Or.inr h

theorem pairFold_findEdge_frozen (gm cm : Nat → Nat → ℚ) (a b : String) :
    ∀ (ps : List ((Nat × String) × Nat × String)) (g : DiGraph),
    (∀ p ∈ ps, p.1.2 = a → p.2.2 = b → cm p.2.1 p.1.1 = 0) →
    findEdge (ps.foldl (bgStep gm cm) g) a b = findEdge g a b := by
  intro ps
  induction ps with
  | nil => intro g _; rfl
  | cons p ps ih =>
      intro g hall
      simp only [List.foldl_cons]
      rw [ih _ (fun q hq => hall q (List.mem_cons_of_mem _ hq))]
      unfold bgStep
      by_cases hc : cm p.2.1 p.1.1 ≠ 0
      · rw [if_pos hc]
        refine findEdge_addEdge_ne ?_
        rintro ⟨ha, hb⟩
        exact hc (hall p (List.mem_cons_self _ _) ha.symm hb.symm)
      · rw [if_neg hc]

theorem pairFold_findEdge_writer (gm cm : Nat → Nat → ℚ) (a b : String)
    (wv : ℚ) :
    ∀ (ps : List ((Nat × String) × Nat × String)) (g : DiGraph),
    (∃ p ∈ ps, p.1.2 = a ∧ p.2.2 = b ∧ cm p.2.1 p.1.1 ≠ 0) →
    (∀ p ∈ ps, p.1.2 = a → p.2.2 = b →
      cm p.2.1 p.1.1 ≠ 0 ∧ gm p.2.1 p.1.1 = wv) →
    findEdge (ps.foldl (bgStep gm cm) g) a b = some (a, b, wv) := by
  intro ps
  induction ps with
  | nil => rintro g ⟨p, hp, -⟩ _; exact absurd hp (List.not_mem_nil p)
  | cons p ps ih =>
      intro g hex hall
      simp only [List.foldl_cons]
      by_cases hp : p.1.2 = a ∧ p.2.2 = b
      · obtain ⟨hcm, hgm⟩ := hall p (List.mem_cons_self _ _) hp.1 hp.2
        have hstep : bgStep gm cm g p = addEdge g a b wv := by
          unfold bgStep
          rw [if_pos hcm, hp.1, hp.2, hgm]
        rw [hstep]
        rcases Classical.em
            (∃ q ∈ ps, q.1.2 = a ∧ q.2.2 = b ∧ cm q.2.1 q.1.1 ≠ 0) with
          hex' | hex'
        · exact ih _ hex' (fun q hq => hall q (List.mem_cons_of_mem _ hq))
        · rw [pairFold_findEdge_frozen gm cm a b ps _ ?_]
          · exact findEdge_addEdge_self g a b wv
          · intro q hq hqa hqb
            by_contra hqc
            exact hex' ⟨q, hq, hqa, hqb, hqc⟩
      · have hex' : ∃ q ∈ ps, q.1.2 = a ∧ q.2.2 = b ∧ cm q.2.1 q.1.1 ≠ 0 := by
          rcases hex with ⟨q, hq, hqa, hqb, hqc⟩
          rcases List.mem_cons.mp hq with rfl | hq'
          · exact absurd ⟨hqa, hqb⟩ hp
          · exact ⟨q, hq', hqa, hqb, hqc⟩
        exact ih _ hex' (fun q hq => hall q (List.mem_cons_of_mem _ hq))

theorem mem_buildgraph_nodes (varlist : List String)
    (gm cm : Nat → Nat → ℚ) (v : String) :
    v ∈ (buildgraph varlist gm cm).nodes ↔
      ∃ r, r < varlist.length ∧ ∃ c, c < varlist.length ∧ cm r c ≠ 0 ∧
        (v = varlist.getD c "" ∨ v = varlist.getD r "") := by
  rw [buildgraph_eq_pairFold, pairFold_mem_nodes]
  constructor
  · rintro (h | ⟨p, hp, hcm, hv⟩)
    · exact absurd h (List.not_mem_nil v)
    · rcases List.mem_flatMap.mp hp with ⟨colp, hcolp, hpmap⟩
      rcases List.mem_map.mp hpmap with ⟨rowp, hrowp, rfl⟩
      rw [List.mem_enum_iff_getElem?] at hcolp hrowp
      rcases List.getElem?_eq_some.mp hcolp with ⟨hcl, hcv⟩
      rcases List.getElem?_eq_some.mp hrowp with ⟨hrl, hrv⟩
      refine ⟨rowp.1, hrl, colp.1, hcl, hcm, ?_⟩
      simp only [List.getD_eq_getElem?_getD, List.getElem?_eq_getElem hcl,
        List.getElem?_eq_getElem hrl, Option.getD_some, hcv, hrv]
      exact hv
  · rintro ⟨r, hr, c, hc, hcm, hv⟩
    refine Or.inr ⟨((c, varlist.getD c ""), (r, varlist.getD r "")), ?_, hcm, hv⟩
    refine List.mem_flatMap.mpr ⟨(c, varlist.getD c ""), ?_, ?_⟩
    · rw [List.mem_enum_iff_getElem?]
      simp [List.getElem?_eq_getElem hc, List.getD_eq_getElem?_getD]
    · refine List.mem_map.mpr ⟨(r, varlist.getD r ""), ?_, rfl⟩
      rw [List.mem_enum_iff_getElem?]
      simp [List.getElem?_eq_getElem hr, List.getD_eq_getElem?_getD]

theorem bgPairs_named_indices {varlist : List String} (hnd : varlist.Nodup)
    {r c : Nat} (hr : r < varlist.length) (hc : c < varlist.length)
    {p : (Nat × String) × Nat × String} (hp : p ∈ bgPairs varlist)
    (ha : p.1.2 = varlist.getD c "") (hb : p.2.2 = varlist.getD r "") :
    p.1.1 = c ∧ p.2.1 = r := by
  rcases List.mem_flatMap.mp hp with ⟨colp, hcolp, hpmap⟩
  rcases List.mem_map.mp hpmap with ⟨rowp, hrowp, rfl⟩
  rw [List.mem_enum_iff_getElem?] at hcolp hrowp
  rcases List.getElem?_eq_some.mp hcolp with ⟨hcl, hcv⟩
  rcases List.getElem?_eq_some.mp hrowp with ⟨hrl, hrv⟩
  simp only [List.getD_eq_getElem?_getD, List.getElem?_eq_getElem hc,
    List.getElem?_eq_getElem hr, Option.getD_some] at ha hb
  constructor
  · refine List.getElem?_inj hcl hnd ?_
    rw [List.getElem?_eq_getElem hcl, List.getElem?_eq_getElem hc, hcv, ha]
  · refine List.getElem?_inj hrl hnd ?_
    rw [List.getElem?_eq_getElem hrl, List.getElem?_eq_getElem hr, hrv, hb]

theorem mem_bgPairs_self {varlist : List String} {r c : Nat}
    (hr : r < varlist.length) (hc : c < varlist.length) :
    ((c, varlist.getD c ""), (r, varlist.getD r "")) ∈ bgPairs varlist := by
  refine List.mem_flatMap.mpr ⟨(c, varlist.getD c ""), ?_, ?_⟩
  · rw [List.mem_enum_iff_getElem?]
    simp [List.getElem?_eq_getElem hc, List.getD_eq_getElem?_getD]
  · refine List.mem_map.mpr ⟨(r, varlist.getD r ""), ?_, rfl⟩
    rw [List.mem_enum_iff_getElem?]
    simp [List.getElem?_eq_getElem hr, List.getD_eq_getElem?_getD]

theorem buildgraph_findEdge {varlist : List String} (hnd : varlist.Nodup)
    (gm cm : Nat → Nat → ℚ) {r c : Nat}
    (hr : r < varlist.length) (hc : c < varlist.length) :
    findEdge (buildgraph varlist gm cm)
        (varlist.getD c "") (varlist.getD r "") =
      if cm r c ≠ 0
      then some (varlist.getD c "", varlist.getD r "", gm r c)
      else none := by
  rw [buildgraph_eq_pairFold]
  by_cases hcm : cm r c ≠ 0
  · rw [if_pos hcm]
    refine pairFold_findEdge_writer gm cm _ _ (gm r c) _ _ ?_ ?_
    · refine ⟨((c, varlist.getD c ""), (r, varlist.getD r "")),
        mem_bgPairs_self hr hc, rfl, rfl, ?_⟩
      simpa using hcm
    · intro p hp ha hb
      obtain ⟨h1, h2⟩ := bgPairs_named_indices hnd hr hc hp ha hb
      rw [h1, h2]
      exact ⟨hcm, rfl⟩
  · rw [if_neg hcm]
    rw [pairFold_findEdge_frozen gm cm _ _ _ _ ?_]
    · rfl
    · intro p hp ha hb
      obtain ⟨h1, h2⟩ := bgPairs_named_indices hnd hr hc hp ha hb
      rw [h1, h2]
      exact not_not.mp hcm

/-- C5 counterexample: `buildgraph` adds nodes only through `add_edge`, so a
variable with no nonzero connection entry is absent from the node set; with
`varlist = ["A"]` and an all-zero connection matrix the resulting graph has
no nodes at all, while the claim requires node set `["A"]`. -/
theorem claim_C5_counterexample :
    "A" ∈ (["A"] : List String) ∧
      "A" ∉ (buildgraph ["A"] (fun _ _ => (1 : ℚ))
        (fun _ _ => (0 : ℚ))).nodes := by
  constructor
  · exact List.mem_cons_self _ _
  · decide

/-- C5 (amended): the graph returned by `buildgraph` has an edge
`col → row` with weight `gainmatrix[row, col]` exactly when
`connections[row, col] != 0`; its node set consists exactly of the
variables incident to at least one nonzero connection entry — isolated
variables are NOT present as graph nodes. -/
theorem claim_C5_amended (varlist : List String) (gm cm : Nat → Nat → ℚ)
    (hnd : varlist.Nodup) :
    (∀ v : String, v ∈ (buildgraph varlist gm cm).nodes ↔
      ∃ r, r < varlist.length ∧ ∃ c, c < varlist.length ∧ cm r c ≠ 0 ∧
        (v = varlist.getD c "" ∨ v = varlist.getD r "")) ∧
    (∀ r c : Nat, r < varlist.length → c < varlist.length →
      ((hasEdge (buildgraph varlist gm cm)
          (varlist.getD c "") (varlist.getD r "") = true) ↔ cm r c ≠ 0) ∧
      edgeWeight (buildgraph varlist gm cm)
          (varlist.getD c "") (varlist.getD r "") =
        if cm r c ≠ 0 then gm r c else 0) := by
  refine ⟨fun v => mem_buildgraph_nodes varlist gm cm v, ?_⟩
  intro r c hr hc
  have hfe := buildgraph_findEdge hnd gm cm hr hc
  by_cases hcm : cm r c ≠ 0
  · rw [if_pos hcm] at hfe
    constructor
    · rw [hasEdge, hfe]
      simp only [Option.isSome_some]
      exact ⟨fun _ => hcm, fun _ => trivial⟩
    · rw [edgeWeight, hfe, if_pos hcm]
      rfl
  · rw [if_neg hcm] at hfe
    constructor
    · rw [hasEdge, hfe]
      simp only [Option.isSome_none]
      exact ⟨fun h => absurd h (by simp), fun h => absurd h hcm⟩
    · rw [edgeWeight, hfe, if_neg hcm]
      rfl

/-- Witness for `claim_C5_amended` at the concrete 2-variable instance
with a single connection `A → B`. -/
theorem claim_C5_amended_witness :
    (∀ v : String,
      v ∈ (buildgraph ["A", "B"] (fun _ _ => (2 : ℚ))
        (fun r c => if r = 1 ∧ c = 0 then (1 : ℚ) else 0)).nodes ↔
      ∃ r, r < (["A", "B"] : List String).length ∧
        ∃ c, c < (["A", "B"] : List String).length ∧
          (if r = 1 ∧ c = 0 then (1 : ℚ) else 0) ≠ 0 ∧
          (v = (["A", "B"] : List String).getD c "" ∨
            v = (["A", "B"] : List String).getD r "")) ∧
    (∀ r c : Nat, r < (["A", "B"] : List String).length →
      c < (["A", "B"] : List String).length →
      ((hasEdge (buildgraph ["A", "B"] (fun _ _ => (2 : ℚ))
          (fun r c => if r = 1 ∧ c = 0 then (1 : ℚ) else 0))
          ((["A", "B"] : List String).getD c "")
          ((["A", "B"] : List String).getD r "") = true) ↔
        (if r = 1 ∧ c = 0 then (1 : ℚ) else 0) ≠ 0) ∧
      edgeWeight (buildgraph ["A", "B"] (fun _ _ => (2 : ℚ))
          (fun r c => if r = 1 ∧ c = 0 then (1 : ℚ) else 0))
          ((["A", "B"] : List String).getD c "")
          ((["A", "B"] : List String).getD r "") =
        if (if r = 1 ∧ c = 0 then (1 : ℚ) else 0) ≠ 0
        then (2 : ℚ) else 0) :=
  claim_C5_amended ["A", "B"] (fun _ _ => (2 : ℚ))
    (fun r c => if r = 1 ∧ c = 0 then (1 : ℚ) else 0) (by decide)

/-! ### `buildcase`, `rankforward`, `rankbackward` (formatmatrices.py) -/

/-- One step of `buildcase`'s loop over the node snapshot: if the node's
out-degree in the current (live) graph equals 1, add an edge to a dummy
node named by the counter and advance the counter. -/
def bcStep (dummyweight : ℚ) (nm : Nat → String) (p : DiGraph × Nat)
    (node : String) : DiGraph × Nat :=
  if outDegree p.1 node = 1 then
    (addEdge p.1 node (nm p.2) dummyweight, p.2 + 1)
  else p

/-- The `for node in m_graph.nodes()` loop of `buildcase`: iterate over a
snapshot of the node list while checking out-degrees on the live graph,
with the dummy counter threaded through. -/
def bcFold (dummyweight : ℚ) (nm : Nat → String) (snapshot : List String)
    (p : DiGraph × Nat) : DiGraph × Nat :=
  snapshot.foldl (bcStep dummyweight nm) p

/-- The graph state after `buildcase`'s augmentation loop.  The Python code
mutates `m_graph` in place; explicit state passing models that mutation.
Dummy names are `name + str(counter)`, the counter starting at 1. -/
def buildcaseGraph (dummyweight : ℚ) (g : DiGraph) (name : String) :
    DiGraph :=
  (bcFold dummyweight (fun k => name ++ toString k) g.nodes (g, 1)).1

/-- Embedding of `buildcase(dummyweight, m_graph, name)`: augment the graph and read off
the transposed connection matrix (`nx.to_numpy_matrix(..., weight=None).T`:
entry `[row, col]` is 1 exactly when the edge `varlist[col] → varlist[row]`
exists), the transposed gain matrix (same with the stored weight), and the
final variable list `m_graph.nodes()`. -/
def buildcase (dummyweight : ℚ) (g : DiGraph) (name : String) :
    (Nat → Nat → ℚ) × (Nat → Nat → ℚ) × List String :=
  let g2 := buildcaseGraph dummyweight g name
  (fun row col =>
      if hasEdge g2 (g2.nodes.getD col "") (g2.nodes.getD row "")
      then 1 else 0,
   fun row col => edgeWeight g2 (g2.nodes.getD col "") (g2.nodes.getD row ""),
   g2.nodes)

/-- Embedding of `rankforward`: build the graph from the matrices as given and run
`buildcase` with dummy name base `'DV_forward'`. -/
def rankforward (varlist : List String)
    (gainmatrix connections : Nat → Nat → ℚ) (dummyweight : ℚ) :
    (Nat → Nat → ℚ) × (Nat → Nat → ℚ) × List String :=
  buildcase dummyweight (buildgraph varlist gainmatrix connections)
    "DV_forward"

/-- Embedding of `rankbackward`: same as `rankforward` but on the transposed gain and
connection matrices, with dummy name base `'DV_backward'`. -/
def rankbackward (varlist : List String)
    (gainmatrix connections : Nat → Nat → ℚ) (dummyweight : ℚ) :
    (Nat → Nat → ℚ) × (Nat → Nat → ℚ) × List String :=
  buildcase dummyweight
    (buildgraph varlist (transposeM gainmatrix) (transposeM connections))
    "DV_backward"

theorem srcCount_append (es1 es2 : List (String × String × ℚ)) (v : String) :
    srcCount (es1 ++ es2) v = srcCount es1 v + srcCount es2 v := by
  simp [srcCount, List.filter_append]

/-- Closed form of `buildcase`'s loop: under freshness and injectivity of
the dummy naming on the counter range, the loop appends one dummy node and
one dummy edge per snapshot node of out-degree 1, in snapshot order, with
consecutive counter values. -/
theorem bcFold_spec (w : ℚ) (nm : Nat → String) :
    ∀ (L : List String) (h : DiGraph) (c : Nat),
    L.Nodup →
    (∀ x ∈ L, x ∈ h.nodes) →
    (∀ e ∈ h.edges, e.1 ∈ h.nodes ∧ e.2.1 ∈ h.nodes) →
    (∀ k, c ≤ k → k < c + L.length → nm k ∉ h.nodes) →
    (∀ k j, c ≤ k → k < c + L.length → c ≤ j → j < c + L.length →
      nm k = nm j → k = j) →
    bcFold w nm L (h, c) =
      (⟨h.nodes ++
          ((L.filter (fun x => outDegree h x == 1)).enumFrom c).map
            (fun p => nm p.1),
        h.edges ++
          ((L.filter (fun x => outDegree h x == 1)).enumFrom c).map
            (fun p => (p.2, nm p.1, w))⟩,
       c + (L.filter (fun x => outDegree h x == 1)).length) := by
  intro L
  induction L with
  | nil =>
      intro h c _ _ _ _ _
      simp [bcFold]
  | cons x rest ih =>
      intro h c hnd hmem hwf hfr hinj
      have hxrest : x ∉ rest := (List.nodup_cons.mp hnd).1
      have hndr : rest.Nodup := (List.nodup_cons.mp hnd).2
      have hlen : (x :: rest).length = rest.length + 1 := rfl
      have hstep : bcFold w nm (x :: rest) (h, c) =
          bcFold w nm rest (bcStep w nm (h, c) x) := rfl
      by_cases hdeg : outDegree h x = 1
      · have hxnodes : x ∈ h.nodes := hmem x (List.mem_cons_self _ _)
        have hfrc : nm c ∉ h.nodes := by
          refine hfr c (le_refl c) ?_
          rw [hlen]; omega
        have hadd : addEdge h x (nm c) w =
            ⟨h.nodes ++ [nm c], h.edges ++ [(x, nm c, w)]⟩ := by
          have hnokey : ∀ e ∈ h.edges, ¬(e.1 = x ∧ e.2.1 = nm c) :=
            fun e he hkey => hfrc (hkey.2 ▸ (hwf e he).2)
          simp only [addEdge, addNode_nodes_of_mem hxnodes,
            addNode_nodes_of_not_mem hfrc]
          rw [setEdgeWeight_of_not_mem w hnokey]
        have hstep1 : bcStep w nm (h, c) x =
            (⟨h.nodes ++ [nm c], h.edges ++ [(x, nm c, w)]⟩, c + 1) := by
          simp only [bcStep, hdeg, if_pos]
          rw [hadd]
        rw [hstep, hstep1]
        set h1 : DiGraph := ⟨h.nodes ++ [nm c], h.edges ++ [(x, nm c, w)]⟩
          with hh1
        have hdegrest : ∀ y ∈ rest, outDegree h1 y = outDegree h y := by
          intro y hy
          have hyx : y ≠ x := fun hyx => hxrest (hyx ▸ hy)
          have : ((x == y) : Bool) = false :=
            beq_eq_false_iff_ne.mpr (Ne.symm hyx)
          simp only [outDegree, hh1, srcCount_append]
          simp [srcCount, List.filter_cons, this]
        have hih := ih h1 (c + 1) hndr
          (fun x' hx' => List.mem_append_left _ (hmem x' (List.mem_cons_of_mem _ hx')))
          (by
            intro e he
            rcases List.mem_append.mp he with he' | he'
            · exact ⟨List.mem_append_left _ (hwf e he').1,
                List.mem_append_left _ (hwf e he').2⟩
            · rcases List.mem_singleton.mp he' with rfl
              exact ⟨List.mem_append_left _ hxnodes,
                List.mem_append_right _ (List.mem_singleton.mpr rfl)⟩)
          (by
            intro k hk1 hk2
            have hkc : c ≤ k := Nat.le_of_succ_le hk1
            have hkb : k < c + (x :: rest).length := by rw [hlen]; omega
            have h1 : nm k ∉ h.nodes := hfr k hkc hkb
            have h2 : nm k ≠ nm c := by
              intro heq
              have := hinj k c hkc hkb (le_refl c) (by rw [hlen]; omega) heq
              omega
            intro hmem'
            rcases List.mem_append.mp hmem' with h' | h'
            · exact h1 h'
            · exact h2 (List.mem_singleton.mp h'))
          (by
            intro k j hk1 hk2 hj1 hj2
            exact hinj k j (Nat.le_of_succ_le hk1) (by rw [hlen]; omega)
              (Nat.le_of_succ_le hj1) (by rw [hlen]; omega))
        rw [hih]
        have hfilter : rest.filter (fun y => outDegree h1 y == 1) =
            rest.filter (fun y => outDegree h y == 1) :=
          List.filter_congr (fun y hy => by rw [hdegrest y hy])
        have hpred : ((outDegree h x == 1) : Bool) = true := by
          simpa using hdeg
        rw [hfilter]
        have hfcons : (x :: rest).filter (fun y => outDegree h y == 1) =
            x :: rest.filter (fun y => outDegree h y == 1) :=
          List.filter_cons_of_pos hpred
        rw [hfcons]
        set F : List String := rest.filter (fun y => outDegree h y == 1)
        have henum : (x :: F).enumFrom c = (c, x) :: F.enumFrom (c + 1) := rfl
        rw [henum]
        simp only [List.map_cons, hh1]
        simp only [Prod.mk.injEq, DiGraph.mk.injEq]
        refine ⟨⟨?_, ?_⟩, ?_⟩
        · rw [List.append_assoc]
          rfl
        · rw [List.append_assoc]
          rfl
        · simp only [List.length_cons]
          omega
      · have hstep0 : bcStep w nm (h, c) x = (h, c) := by
          simp only [bcStep]
          rw [if_neg hdeg]
        rw [hstep, hstep0]
        have hih := ih h c hndr
          (fun x' hx' => hmem x' (List.mem_cons_of_mem _ hx'))
          hwf
          (fun k hk1 hk2 => hfr k hk1 (by rw [hlen]; omega))
          (fun k j hk1 hk2 hj1 hj2 =>
            hinj k j hk1 (by rw [hlen]; omega) hj1 (by rw [hlen]; omega))
        rw [hih]
        have hpred : ((outDegree h x == 1) : Bool) = false := by
          simpa using hdeg
        rw [List.filter_cons_of_neg (by simp [hpred])]

/-- Closed form of `buildcaseGraph` under well-formedness of the input
graph, freshness of the dummy names and injectivity of the naming on the
counter range actually used. -/
theorem buildcaseGraph_spec (w : ℚ) (g : DiGraph) (name : String)
    (hwf : WF g)
    (hfr : ∀ k, k < 1 + g.nodes.length → 1 ≤ k →
      (name ++ toString k) ∉ g.nodes)
    (hinj : ∀ k, k < 1 + g.nodes.length → ∀ j, j < 1 + g.nodes.length →
      1 ≤ k → 1 ≤ j → name ++ toString k = name ++ toString j → k = j) :
    buildcaseGraph w g name =
      ⟨g.nodes ++
          ((g.nodes.filter (fun x => outDegree g x == 1)).enumFrom 1).map
            (fun p => name ++ toString p.1),
        g.edges ++
          ((g.nodes.filter (fun x => outDegree g x == 1)).enumFrom 1).map
            (fun p => (p.2, name ++ toString p.1, w))⟩ := by
  unfold buildcaseGraph
  rw [bcFold_spec w _ g.nodes g 1 hwf.1 (fun x hx => hx) hwf.2
    (fun k hk1 hk2 => hfr k (by omega) hk1)
    (fun k j hk1 hk2 hj1 hj2 => hinj k (by omega) j (by omega) hk1 hj1)]

/-- The common (naming-independent) value of the `buildcase` output
matrices at position `(row, col)`: `some q` means the augmented graph has
the positional edge `col → row` with weight `q`. -/
def bcEntryRef (g : DiGraph) (w : ℚ) (row col : Nat) : Option ℚ :=
  if row < g.nodes.length ∧ col < g.nodes.length then
    (findEdge g (g.nodes.getD col "") (g.nodes.getD row "")).map
      (fun e => e.2.2)
  else if g.nodes.length ≤ row ∧ col < g.nodes.length ∧
      (g.nodes.filter (fun x => outDegree g x == 1)).getD
          (row - g.nodes.length) "" =
        g.nodes.getD col "" then
    some w
  else none

theorem getD_append_lt {l1 l2 : List String} {i : Nat} (h : i < l1.length)
    (d : String) : (l1 ++ l2).getD i d = l1.getD i d := by
  simp [List.getD_eq_getElem?_getD, List.getElem?_append_left h]

theorem getD_append_ge {l1 l2 : List String} {i : Nat}
    (h : l1.length ≤ i) (d : String) :
    (l1 ++ l2).getD i d = l2.getD (i - l1.length) d := by
  simp [List.getD_eq_getElem?_getD, List.getElem?_append_right h]

theorem find?_unique {α : Type} {p : α → Bool} {l : List α} {x : α}
    (hx : x ∈ l) (hpx : p x = true)
    (huniq : ∀ y ∈ l, p y = true → y = x) : l.find? p = some x := by
  induction l with
  | nil => exact absurd hx (List.not_mem_nil x)
  | cons y l ih =>
      by_cases hpy : p y = true
      · rw [List.find?_cons_of_pos _ hpy]
        rw [huniq y (List.mem_cons_self _ _) hpy]
      · rw [List.find?_cons_of_neg _ hpy]
        rcases List.mem_cons.mp hx with rfl | hx'
        · exact absurd hpx hpy
        · exact ih hx' (fun z hz hpz => huniq z (List.mem_cons_of_mem _ hz) hpz)

/-- The output of `buildcase` in terms of the naming-independent reference
`bcEntryRef`: the variable list has one entry per original node plus one
per out-degree-1 node, and each matrix entry is determined by
`bcEntryRef`. -/
theorem buildcase_entries (w : ℚ) (g : DiGraph) (name : String)
    (hwf : WF g)
    (hfr : ∀ k, k < 1 + g.nodes.length → 1 ≤ k →
      (name ++ toString k) ∉ g.nodes)
    (hinj : ∀ k, k < 1 + g.nodes.length → ∀ j, j < 1 + g.nodes.length →
      1 ≤ k → 1 ≤ j → name ++ toString k = name ++ toString j → k = j) :
    (buildcase w g name).2.2.length =
      g.nodes.length +
        (g.nodes.filter (fun x => outDegree g x == 1)).length ∧
    ∀ row col,
      row < g.nodes.length +
        (g.nodes.filter (fun x => outDegree g x == 1)).length →
      col < g.nodes.length +
        (g.nodes.filter (fun x => outDegree g x == 1)).length →
      (buildcase w g name).1 row col =
        (if (bcEntryRef g w row col).isSome then 1 else 0) ∧
      (buildcase w g name).2.1 row col = (bcEntryRef g w row col).getD 0 := by
  have hspec := buildcaseGraph_spec w g name hwf hfr hinj
  set n := g.nodes.length with hn
  set F := g.nodes.filter (fun x => outDegree g x == 1) with hF
  set D := (F.enumFrom 1).map (fun p => name ++ toString p.1) with hD
  set E := (F.enumFrom 1).map (fun p => (p.2, name ++ toString p.1, w))
    with hE
  have hFlen : F.length ≤ n := List.length_filter_le _ _
  have hDlen : D.length = F.length := by simp [hD]
  have hvars : (buildcase w g name).2.2 = g.nodes ++ D := by
    show (buildcaseGraph w g name).nodes = g.nodes ++ D
    rw [hspec]
  have hDgetD : ∀ j, j < F.length → D.getD j "" = name ++ toString (1 + j) := by
    intro j hj
    have hj' : j < (F.enumFrom 1).length := by
      rw [List.enumFrom_length]; exact hj
    simp [hD, List.getD_eq_getElem?_getD, List.getElem?_map,
      List.getElem?_enumFrom, List.getElem?_eq_getElem hj]
  have hEmem : ∀ e ∈ E, ∃ i, 1 ≤ i ∧ i < 1 + F.length ∧
      e = (F.getD (i - 1) "", name ++ toString i, w) ∧ e.1 ∈ g.nodes := by
    intro e he
    rcases List.mem_map.mp he with ⟨p, hp, rfl⟩
    obtain ⟨h1, h2⟩ := List.mk_mem_enumFrom_iff_le_and_getElem?_sub.mp
      (show (p.1, p.2) ∈ F.enumFrom 1 from hp)
    rcases List.getElem?_eq_some.mp h2 with ⟨hlt, hval⟩
    refine ⟨p.1, h1, by omega, ?_, ?_⟩
    · have : F.getD (p.1 - 1) "" = p.2 := by
        rw [List.getD_eq_getElem?_getD, h2]; rfl
      rw [this]
    · have hp2F : p.2 ∈ F := hval ▸ List.getElem_mem hlt
      exact (List.mem_filter.mp hp2F).1
  have hfrN : ∀ i, 1 ≤ i → i < 1 + F.length →
      (name ++ toString i) ∉ g.nodes :=
    fun i h1 h2 => hfr i (by omega) h1
  have hinjN : ∀ i j, 1 ≤ i → i < 1 + F.length → 1 ≤ j → j < 1 + F.length →
      name ++ toString i = name ++ toString j → i = j :=
    fun i j h1 h2 h3 h4 heq => hinj i (by omega) j (by omega) h1 h3 heq
  have hfind : ∀ row col, row < n + F.length → col < n + F.length →
      findEdge (buildcaseGraph w g name)
          ((g.nodes ++ D).getD col "") ((g.nodes ++ D).getD row "") =
        (bcEntryRef g w row col).map
          (fun q => ((g.nodes ++ D).getD col "",
            (g.nodes ++ D).getD row "", q)) := by
    intro row col hrow hcol
    have hfind_g2 : findEdge (buildcaseGraph w g name)
        ((g.nodes ++ D).getD col "") ((g.nodes ++ D).getD row "") =
        (g.edges ++ E).find? (fun e =>
          e.1 == (g.nodes ++ D).getD col "" &&
          e.2.1 == (g.nodes ++ D).getD row "") := by
      rw [show findEdge (buildcaseGraph w g name) = fun u v =>
          (buildcaseGraph w g name).edges.find?
            (fun e => e.1 == u && e.2.1 == v) from rfl, hspec]
    rcases Nat.lt_or_ge col n with hcol_n | hcol_n
    · have ha : (g.nodes ++ D).getD col "" = g.nodes.getD col "" :=
        getD_append_lt hcol_n ""
      have hamem : g.nodes.getD col "" ∈ g.nodes := by
        rw [List.getD_eq_getElem?_getD, List.getElem?_eq_getElem hcol_n]
        exact List.getElem_mem hcol_n
      rcases Nat.lt_or_ge row n with hrow_n | hrow_n
      · -- both indices point at original nodes
        have hb : (g.nodes ++ D).getD row "" = g.nodes.getD row "" :=
          getD_append_lt hrow_n ""
        have hbmem : g.nodes.getD row "" ∈ g.nodes := by
          rw [List.getD_eq_getElem?_getD, List.getElem?_eq_getElem hrow_n]
          exact List.getElem_mem hrow_n
        rw [hfind_g2, ha, hb, List.find?_append]
        have hEnone : E.find? (fun e =>
            e.1 == g.nodes.getD col "" && e.2.1 == g.nodes.getD row "") =
            none := by
          rw [List.find?_eq_none]
          intro e he
          obtain ⟨i, h1, h2, he_eq, -⟩ := hEmem e he
          rw [he_eq]
          simp only [Bool.and_eq_true, beq_iff_eq]
          rintro ⟨-, htgt⟩
          exact hfrN i h1 h2 (by rw [htgt]; exact hbmem)
        rw [hEnone, Option.or_none]
        rw [bcEntryRef, if_pos ⟨hrow_n, hcol_n⟩]
        cases hfe : findEdge g (g.nodes.getD col "") (g.nodes.getD row "") with
        | none => rw [show (g.edges.find? (fun e =>
              e.1 == g.nodes.getD col "" && e.2.1 == g.nodes.getD row "")) =
              findEdge g (g.nodes.getD col "") (g.nodes.getD row "") from rfl,
            hfe]; rfl
        | some e =>
            have hpred := List.find?_some hfe
            simp only [Bool.and_eq_true, beq_iff_eq] at hpred
            rw [show (g.edges.find? (fun e =>
              e.1 == g.nodes.getD col "" && e.2.1 == g.nodes.getD row "")) =
              findEdge g (g.nodes.getD col "") (g.nodes.getD row "") from rfl,
              hfe]
            simp only [Option.map_some']
            congr 1
            rcases e with ⟨e1, e2, e3⟩
            simp only at hpred
            rw [hpred.1, hpred.2]
      · -- target is a dummy node
        have hrowF : row - n < F.length := by omega
        have hb : (g.nodes ++ D).getD row "" =
            name ++ toString (1 + (row - n)) := by
          rw [getD_append_ge (by omega) ""]
          rw [show row - g.nodes.length = row - n from rfl]
          exact hDgetD (row - n) hrowF
        have hbfresh : (name ++ toString (1 + (row - n))) ∉ g.nodes :=
          hfrN (1 + (row - n)) (by omega) (by omega)
        rw [hfind_g2, ha, hb, List.find?_append]
        have he0none : g.edges.find? (fun e =>
            e.1 == g.nodes.getD col "" &&
            e.2.1 == name ++ toString (1 + (row - n))) = none := by
          rw [List.find?_eq_none]
          intro e he
          simp only [Bool.and_eq_true, beq_iff_eq]
          rintro ⟨-, htgt⟩
          exact hbfresh (by rw [← htgt]; exact (hwf.2 e he).2)
        rw [he0none, Option.none_or]
        by_cases hsrc : F.getD (row - n) "" = g.nodes.getD col ""
        · have hmemE : ((g.nodes.getD col "" : String),
              name ++ toString (1 + (row - n)), w) ∈ E := by
            rw [hE]
            refine List.mem_map.mpr
              ⟨(1 + (row - n), g.nodes.getD col ""), ?_, rfl⟩
            refine List.mk_mem_enumFrom_iff_le_and_getElem?_sub.mpr
              ⟨by omega, ?_⟩
            rw [show 1 + (row - n) - 1 = row - n from by omega]
            rw [← hsrc, List.getD_eq_getElem?_getD,
              List.getElem?_eq_getElem hrowF]
            rfl
          have hres : E.find? (fun e =>
              e.1 == g.nodes.getD col "" &&
              e.2.1 == name ++ toString (1 + (row - n))) =
              some (g.nodes.getD col "",
                name ++ toString (1 + (row - n)), w) := by
            refine find?_unique hmemE (by simp) ?_
            intro y hy hpy
            obtain ⟨i, h1, h2, hy_eq, -⟩ := hEmem y hy
            rw [hy_eq] at hpy
            simp only [Bool.and_eq_true, beq_iff_eq] at hpy
            have hteq : i = 1 + (row - n) := by
              refine hinjN i (1 + (row - n)) h1 h2 (by omega) (by omega) ?_
              exact hpy.2
            rw [hy_eq, hteq]
            rw [show 1 + (row - n) - 1 = row - n from by omega, hsrc]
          rw [hres]
          rw [bcEntryRef, if_neg (by omega), if_pos ⟨by omega, hcol_n, hsrc⟩]
          rfl
        · have hres : E.find? (fun e =>
              e.1 == g.nodes.getD col "" &&
              e.2.1 == name ++ toString (1 + (row - n))) = none := by
            rw [List.find?_eq_none]
            intro y hy
            obtain ⟨i, h1, h2, hy_eq, -⟩ := hEmem y hy
            rw [hy_eq]
            simp only [Bool.and_eq_true, beq_iff_eq]
            rintro ⟨hsrc', htgt⟩
            have hteq : i = 1 + (row - n) := by
              refine hinjN i (1 + (row - n)) h1 h2 (by omega) (by omega) ?_
              exact htgt
            rw [hteq] at hsrc'
            rw [show 1 + (row - n) - 1 = row - n from by omega] at hsrc'
            exact hsrc hsrc'
          rw [hres]
          rw [bcEntryRef, if_neg (by omega),
            if_neg (fun hcon => hsrc hcon.2.2)]
          rfl
    · -- source index points at a dummy node: no outgoing edges
      have hcolF : col - n < F.length := by omega
      have ha : (g.nodes ++ D).getD col "" =
          name ++ toString (1 + (col - n)) := by
        rw [getD_append_ge (by omega) ""]
        exact hDgetD (col - n) hcolF
      have hafresh : (name ++ toString (1 + (col - n))) ∉ g.nodes :=
        hfrN (1 + (col - n)) (by omega) (by omega)
      rw [hfind_g2, ha, List.find?_append]
      have he0none : g.edges.find? (fun e =>
          e.1 == name ++ toString (1 + (col - n)) &&
          e.2.1 == (g.nodes ++ D).getD row "") = none := by
        rw [List.find?_eq_none]
        intro e he
        simp only [Bool.and_eq_true, beq_iff_eq]
        rintro ⟨hsrc', -⟩
        exact hafresh (by rw [← hsrc']; exact (hwf.2 e he).1)
      have hEnone : E.find? (fun e =>
          e.1 == name ++ toString (1 + (col - n)) &&
          e.2.1 == (g.nodes ++ D).getD row "") = none := by
        rw [List.find?_eq_none]
        intro e he
        obtain ⟨i, h1, h2, he_eq, hsrcmem⟩ := hEmem e he
        simp only [Bool.and_eq_true, beq_iff_eq]
        rintro ⟨hsrc', -⟩
        exact hafresh (by rw [← hsrc']; exact hsrcmem)
      rw [he0none, hEnone]
      rw [bcEntryRef, if_neg (by omega), if_neg (by omega)]
      rfl
  refine ⟨by rw [hvars]; simp [hDlen], ?_⟩
  intro row col hrow hcol
  have hkey := hfind row col hrow hcol
  constructor
  · show (if hasEdge (buildcaseGraph w g name)
        ((buildcaseGraph w g name).nodes.getD col "")
        ((buildcaseGraph w g name).nodes.getD row "") then (1 : ℚ) else 0) =
      if (bcEntryRef g w row col).isSome then 1 else 0
    rw [show (buildcaseGraph w g name).nodes = g.nodes ++ D from by
      rw [hspec]]
    rw [hasEdge, hkey]
    cases bcEntryRef g w row col <;> rfl
  · show edgeWeight (buildcaseGraph w g name)
        ((buildcaseGraph w g name).nodes.getD col "")
        ((buildcaseGraph w g name).nodes.getD row "") =
      (bcEntryRef g w row col).getD 0
    rw [show (buildcaseGraph w g name).nodes = g.nodes ++ D from by
      rw [hspec]]
    rw [edgeWeight, hkey]
    cases bcEntryRef g w row col <;> rfl

theorem nodup_addNode {g : DiGraph} (h : g.nodes.Nodup) (v : String) :
    (addNode g v).nodes.Nodup := by
  by_cases hv : v ∈ g.nodes
  · rw [addNode_nodes_of_mem hv]; exact h
  · rw [addNode_nodes_of_not_mem hv]
    simp [List.nodup_append, h, hv]

theorem WF_addEdge {g : DiGraph} (h : WF g) (u v : String) (w : ℚ) :
    WF (addEdge g u v w) := by
  obtain ⟨hnd, hep⟩ := h
  constructor
  · show (addNode (addNode g u) v).nodes.Nodup
    exact nodup_addNode (nodup_addNode hnd u) v
  · intro e he
    have hedges : (addEdge g u v w).edges = setEdgeWeight g.edges u v w := by
      simp only [addEdge, addNode_edges]
    have hnodeset : ∀ x : String, x ∈ g.nodes ∨ x = u ∨ x = v →
        x ∈ (addEdge g u v w).nodes := by
      intro x hx
      show x ∈ (addNode (addNode g u) v).nodes
      rw [mem_addNode, mem_addNode]
      tauto
    rw [hedges] at he
    rcases mem_setEdgeWeight he with hold | rfl
    · exact ⟨hnodeset _ (Or.inl (hep e hold).1),
        hnodeset _ (Or.inl (hep e hold).2)⟩
    · exact ⟨hnodeset _ (Or.inr (Or.inl rfl)),
        hnodeset _ (Or.inr (Or.inr rfl))⟩

theorem WF_pairFold (gm cm : Nat → Nat → ℚ) :
    ∀ (ps : List ((Nat × String) × Nat × String)) (g : DiGraph),
    WF g → WF (ps.foldl (bgStep gm cm) g) := by
  intro ps
  induction ps with
  | nil => intro g hg; exact hg
  | cons p ps ih =>
      intro g hg
      simp only [List.foldl_cons]
      refine ih _ ?_
      unfold bgStep
      by_cases hc : cm p.2.1 p.1.1 ≠ 0
      · rw [if_pos hc]; exact WF_addEdge hg _ _ _
      · rw [if_neg hc]; exact hg

theorem WF_buildgraph (varlist : List String) (gm cm : Nat → Nat → ℚ) :
    WF (buildgraph varlist gm cm) := by
  rw [buildgraph_eq_pairFold]
  refine WF_pairFold gm cm _ _ ⟨List.nodup_nil, ?_⟩
  intro e he
  exact absurd he (List.not_mem_nil e)

theorem dummyE_filter_target (F : List String) (name : String) (w : ℚ) :
    ∀ (s t : Nat), s ≤ t → t < s + F.length →
    (∀ i j, s ≤ i → i < s + F.length → s ≤ j → j < s + F.length →
      name ++ toString i = name ++ toString j → i = j) →
    ((F.enumFrom s).map (fun p => (p.2, name ++ toString p.1, w))).filter
        (fun e => e.2.1 == name ++ toString t) =
      [(F.getD (t - s) "", name ++ toString t, w)] := by
  induction F with
  | nil =>
      intro s t hst htl _
      simp only [List.length_nil, Nat.add_zero] at htl
      omega
  | cons y F ih =>
      intro s t hst htl hinj
      simp only [List.enumFrom_cons, List.map_cons, List.filter_cons]
      have hlen : (y :: F).length = F.length + 1 := rfl
      by_cases hts : t = s
      · subst hts
        have hhead : (((y, name ++ toString t, w).2.1 ==
            name ++ toString t) : Bool) = true := by simp
        rw [hhead]
        have htail : (List.map (fun p => (p.2, name ++ toString p.1, w))
            (F.enumFrom (t + 1))).filter
            (fun e => e.2.1 == name ++ toString t) = [] := by
          rw [List.filter_eq_nil_iff]
          intro e he
          rcases List.mem_map.mp he with ⟨p, hp, rfl⟩
          obtain ⟨h1, h2⟩ := List.mk_mem_enumFrom_iff_le_and_getElem?_sub.mp
            (show (p.1, p.2) ∈ F.enumFrom (t + 1) from hp)
          rcases List.getElem?_eq_some.mp h2 with ⟨hlt, -⟩
          simp only [beq_iff_eq]
          intro heq
          have : p.1 = t := by
            refine hinj p.1 t (by omega) (by rw [hlen]; omega)
              (le_refl t) (by rw [hlen]; omega) heq
          omega
        simp only [htail]
        simp
      · have hhead : (((y, name ++ toString s, w).2.1 ==
            name ++ toString t) : Bool) = false := by
          simp only [beq_eq_false_iff_ne, ne_eq]
          intro heq
          exact hts ((hinj s t (le_refl s) (by rw [hlen]; omega) hst
            (by rw [hlen]; omega) heq).symm)
        rw [hhead]
        have hrec := ih (s + 1) t (by omega) (by rw [hlen] at htl; omega)
          (fun i j hi1 hi2 hj1 hj2 heq =>
            hinj i j (by omega) (by rw [hlen]; omega) (by omega)
              (by rw [hlen]; omega) heq)
        simp only [hrec]
        have : t - s = (t - (s + 1)) + 1 := by omega
        rw [this, List.getD_cons_succ]
        simp

/-- C4: after `buildcase`'s augmentation (modelled by `buildcaseGraph`),
every node of prior out-degree exactly 1 has out-degree at least 2, every
node of prior out-degree other than 1 keeps its outgoing and incoming edge
lists unchanged, and every added dummy node has exactly one incoming edge,
every incoming edge weight equal to `dummyweight`, and no outgoing
edges. -/
theorem claim_C4 (w : ℚ) (g : DiGraph) (name : String) (hwf : WF g)
    (hfr : ∀ k, k < 1 + g.nodes.length → 1 ≤ k →
      (name ++ toString k) ∉ g.nodes)
    (hinj : ∀ k, k < 1 + g.nodes.length → ∀ j, j < 1 + g.nodes.length →
      1 ≤ k → 1 ≤ j → name ++ toString k = name ++ toString j → k = j) :
    (∀ x ∈ g.nodes, outDegree g x = 1 →
      2 ≤ outDegree (buildcaseGraph w g name) x) ∧
    (∀ x ∈ g.nodes, outDegree g x ≠ 1 →
      (buildcaseGraph w g name).edges.filter (fun e => e.1 == x) =
        g.edges.filter (fun e => e.1 == x) ∧
      (buildcaseGraph w g name).edges.filter (fun e => e.2.1 == x) =
        g.edges.filter (fun e => e.2.1 == x)) ∧
    (∀ d ∈ (buildcaseGraph w g name).nodes, d ∉ g.nodes →
      ((buildcaseGraph w g name).edges.filter
          (fun e => e.2.1 == d)).length = 1 ∧
      (∀ e ∈ (buildcaseGraph w g name).edges, e.2.1 = d → e.2.2 = w) ∧
      outDegree (buildcaseGraph w g name) d = 0) := by
  have hspec := buildcaseGraph_spec w g name hwf hfr hinj
  set F := g.nodes.filter (fun x => outDegree g x == 1) with hF
  set D := (F.enumFrom 1).map (fun p => name ++ toString p.1) with hD
  set E := (F.enumFrom 1).map (fun p => (p.2, name ++ toString p.1, w))
    with hE
  have hFlen : F.length ≤ g.nodes.length := List.length_filter_le _ _
  have hFsub : ∀ x ∈ F, x ∈ g.nodes := fun x hx => (List.mem_filter.mp hx).1
  have hEmem : ∀ e ∈ E, ∃ i, 1 ≤ i ∧ i < 1 + F.length ∧
      e = (F.getD (i - 1) "", name ++ toString i, w) ∧
      F.getD (i - 1) "" ∈ F := by
    intro e he
    rcases List.mem_map.mp he with ⟨p, hp, rfl⟩
    obtain ⟨h1, h2⟩ := List.mk_mem_enumFrom_iff_le_and_getElem?_sub.mp
      (show (p.1, p.2) ∈ F.enumFrom 1 from hp)
    rcases List.getElem?_eq_some.mp h2 with ⟨hlt, hval⟩
    have hgd : F.getD (p.1 - 1) "" = p.2 := by
      rw [List.getD_eq_getElem?_getD, h2]; rfl
    refine ⟨p.1, h1, by omega, by rw [hgd], ?_⟩
    rw [hgd]
    exact hval ▸ List.getElem_mem hlt
  have hfrF : ∀ i, 1 ≤ i → i < 1 + F.length →
      (name ++ toString i) ∉ g.nodes :=
    fun i h1 h2 => hfr i (by omega) h1
  have hedges : (buildcaseGraph w g name).edges = g.edges ++ E := by
    rw [hspec]
  have hnodes : (buildcaseGraph w g name).nodes = g.nodes ++ D := by
    rw [hspec]
  refine ⟨?_, ?_, ?_⟩
  · -- out-degree 1 nodes gain an edge
    intro x hx hdeg
    have hxF : x ∈ F := List.mem_filter.mpr ⟨hx, by simpa using hdeg⟩
    rcases List.mem_iff_getElem.mp hxF with ⟨i, hi, hFi⟩
    have heE : (x, name ++ toString (1 + i), w) ∈ E := by
      rw [hE]
      refine List.mem_map.mpr ⟨(1 + i, x), ?_, rfl⟩
      refine List.mk_mem_enumFrom_iff_le_and_getElem?_sub.mpr ⟨by omega, ?_⟩
      rw [show 1 + i - 1 = i from by omega]
      rw [List.getElem?_eq_getElem hi, hFi]
    have houtd : outDegree (buildcaseGraph w g name) x =
        outDegree g x + srcCount E x := by
      show srcCount (buildcaseGraph w g name).edges x = _
      rw [hedges, srcCount_append]; rfl
    have hmemf : (x, name ++ toString (1 + i), w) ∈
        E.filter (fun e => e.1 == x) :=
      List.mem_filter.mpr ⟨heE, by simp⟩
    have hpos : 0 < srcCount E x :=
      List.length_pos.mpr (List.ne_nil_of_mem hmemf)
    omega
  · -- other nodes keep their edge lists
    intro x hx hdeg
    have hxF : x ∉ F := by
      intro hmem
      exact hdeg (by simpa using (List.mem_filter.mp hmem).2)
    constructor
    · rw [hedges, List.filter_append]
      have : E.filter (fun e => e.1 == x) = [] := by
        rw [List.filter_eq_nil_iff]
        intro e he
        obtain ⟨i, h1, h2, he_eq, hsrcF⟩ := hEmem e he
        rw [he_eq]
        simp only [beq_iff_eq]
        intro heq
        exact hxF (heq ▸ hsrcF)
      rw [this, List.append_nil]
    · rw [hedges, List.filter_append]
      have : E.filter (fun e => e.2.1 == x) = [] := by
        rw [List.filter_eq_nil_iff]
        intro e he
        obtain ⟨i, h1, h2, he_eq, -⟩ := hEmem e he
        rw [he_eq]
        simp only [beq_iff_eq]
        intro heq
        exact hfrF i h1 h2 (heq ▸ hx)
      rw [this, List.append_nil]
  · -- dummy nodes
    intro d hd hdnot
    rw [hnodes] at hd
    have hdD : d ∈ D := by
      rcases List.mem_append.mp hd with h | h
      · exact absurd h hdnot
      · exact h
    rcases List.mem_map.mp hdD with ⟨p, hp, rfl⟩
    obtain ⟨h1, h2⟩ := List.mk_mem_enumFrom_iff_le_and_getElem?_sub.mp
      (show (p.1, p.2) ∈ F.enumFrom 1 from hp)
    rcases List.getElem?_eq_some.mp h2 with ⟨hlt, -⟩
    refine ⟨?_, ?_, ?_⟩
    · rw [hedges, List.filter_append]
      have hgnil : g.edges.filter
          (fun e => e.2.1 == name ++ toString p.1) = [] := by
        rw [List.filter_eq_nil_iff]
        intro e he
        simp only [beq_iff_eq]
        intro heq
        exact hfrF p.1 h1 (by omega) (heq ▸ (hwf.2 e he).2)
      rw [hgnil, List.nil_append, hE]
      rw [dummyE_filter_target F name w 1 p.1 h1 (by omega)
        (fun i j hi1 hi2 hj1 hj2 heq =>
          hinj i (by omega) j (by omega) hi1 hj1 heq)]
      rfl
    · intro e he heq
      rw [hedges] at he
      rcases List.mem_append.mp he with h | h
      · exact absurd (heq ▸ (hwf.2 e h).2) (fun hc =>
          hfrF p.1 h1 (by omega) hc)
      · obtain ⟨i, hi1, hi2, he_eq, -⟩ := hEmem e h
        rw [he_eq]
    · show srcCount (buildcaseGraph w g name).edges (name ++ toString p.1) = 0
      rw [hedges, srcCount_append]
      have h01 : srcCount g.edges (name ++ toString p.1) = 0 := by
        show (g.edges.filter (fun e => e.1 == name ++ toString p.1)).length = 0
        rw [List.length_eq_zero, List.filter_eq_nil_iff]
        intro e he
        simp only [beq_iff_eq]
        intro heq
        exact hfrF p.1 h1 (by omega) (heq ▸ (hwf.2 e he).1)
      have h02 : srcCount E (name ++ toString p.1) = 0 := by
        show (E.filter (fun e => e.1 == name ++ toString p.1)).length = 0
        rw [List.length_eq_zero, List.filter_eq_nil_iff]
        intro e he
        obtain ⟨i, hi1, hi2, he_eq, hsrcF⟩ := hEmem e he
        rw [he_eq]
        simp only [beq_iff_eq]
        intro heq
        exact hfrF p.1 h1 (by omega) (heq ▸ hFsub _ hsrcF)
      omega

/-- Witness for `claim_C4`: the two-node graph `A → B` (weight 5), where
`A` has out-degree 1 and `B` has out-degree 0. -/
theorem claim_C4_witness :
    (∀ x ∈ (⟨["A", "B"], [("A", "B", 5)]⟩ : DiGraph).nodes,
      outDegree ⟨["A", "B"], [("A", "B", 5)]⟩ x = 1 →
      2 ≤ outDegree
        (buildcaseGraph 1 ⟨["A", "B"], [("A", "B", 5)]⟩ "DV_forward") x) ∧
    (∀ x ∈ (⟨["A", "B"], [("A", "B", 5)]⟩ : DiGraph).nodes,
      outDegree ⟨["A", "B"], [("A", "B", 5)]⟩ x ≠ 1 →
      (buildcaseGraph 1 ⟨["A", "B"], [("A", "B", 5)]⟩
          "DV_forward").edges.filter (fun e => e.1 == x) =
        (⟨["A", "B"], [("A", "B", 5)]⟩ : DiGraph).edges.filter
          (fun e => e.1 == x) ∧
      (buildcaseGraph 1 ⟨["A", "B"], [("A", "B", 5)]⟩
          "DV_forward").edges.filter (fun e => e.2.1 == x) =
        (⟨["A", "B"], [("A", "B", 5)]⟩ : DiGraph).edges.filter
          (fun e => e.2.1 == x)) ∧
    (∀ d ∈ (buildcaseGraph 1 ⟨["A", "B"], [("A", "B", 5)]⟩
        "DV_forward").nodes,
      d ∉ (⟨["A", "B"], [("A", "B", 5)]⟩ : DiGraph).nodes →
      ((buildcaseGraph 1 ⟨["A", "B"], [("A", "B", 5)]⟩
          "DV_forward").edges.filter (fun e => e.2.1 == d)).length = 1 ∧
      (∀ e ∈ (buildcaseGraph 1 ⟨["A", "B"], [("A", "B", 5)]⟩
          "DV_forward").edges, e.2.1 = d → e.2.2 = 1) ∧
      outDegree (buildcaseGraph 1 ⟨["A", "B"], [("A", "B", 5)]⟩
        "DV_forward") d = 0) :=
  claim_C4 1 ⟨["A", "B"], [("A", "B", 5)]⟩ "DV_forward"
    (by constructor
        · decide
        · decide)
    (by decide) (by decide)

/-- C10: `buildcase` mutates the graph passed to it (modelled by state
passing as `buildcaseGraph`): the caller's post-call graph keeps all
original nodes and edges, contains a dummy node and dummy edge whenever
some node had out-degree 1, and in that case differs from the input
graph. -/
theorem claim_C10 (w : ℚ) (g : DiGraph) (name : String) (hwf : WF g)
    (hfr : ∀ k, k < 1 + g.nodes.length → 1 ≤ k →
      (name ++ toString k) ∉ g.nodes)
    (hinj : ∀ k, k < 1 + g.nodes.length → ∀ j, j < 1 + g.nodes.length →
      1 ≤ k → 1 ≤ j → name ++ toString k = name ++ toString j → k = j)
    (x : String) (hx : x ∈ g.nodes) (hdeg : outDegree g x = 1) :
    (∀ e ∈ g.edges, e ∈ (buildcaseGraph w g name).edges) ∧
    (∀ v ∈ g.nodes, v ∈ (buildcaseGraph w g name).nodes) ∧
    (∃ d, d ∈ (buildcaseGraph w g name).nodes ∧ d ∉ g.nodes ∧
      (x, d, w) ∈ (buildcaseGraph w g name).edges) ∧
    buildcaseGraph w g name ≠ g := by
  have hspec := buildcaseGraph_spec w g name hwf hfr hinj
  set F := g.nodes.filter (fun x => outDegree g x == 1) with hF
  set D := (F.enumFrom 1).map (fun p => name ++ toString p.1) with hD
  set E := (F.enumFrom 1).map (fun p => (p.2, name ++ toString p.1, w))
    with hE
  have hFlen : F.length ≤ g.nodes.length := List.length_filter_le _ _
  have hedges : (buildcaseGraph w g name).edges = g.edges ++ E := by
    rw [hspec]
  have hnodes : (buildcaseGraph w g name).nodes = g.nodes ++ D := by
    rw [hspec]
  have hxF : x ∈ F := List.mem_filter.mpr ⟨hx, by simpa using hdeg⟩
  rcases List.mem_iff_getElem.mp hxF with ⟨i, hi, hFi⟩
  have hpmem : (1 + i, x) ∈ F.enumFrom 1 := by
    refine List.mk_mem_enumFrom_iff_le_and_getElem?_sub.mpr ⟨by omega, ?_⟩
    rw [show 1 + i - 1 = i from by omega]
    rw [List.getElem?_eq_getElem hi, hFi]
  have heE : (x, name ++ toString (1 + i), w) ∈ E := by
    rw [hE]
    exact List.mem_map.mpr ⟨(1 + i, x), hpmem, rfl⟩
  have hdD : (name ++ toString (1 + i)) ∈ D := by
    rw [hD]
    exact List.mem_map.mpr ⟨(1 + i, x), hpmem, rfl⟩
  refine ⟨?_, ?_, ?_, ?_⟩
  · intro e he
    rw [hedges]
    exact List.mem_append_left _ he
  · intro v hv
    rw [hnodes]
    exact List.mem_append_left _ hv
  · refine ⟨name ++ toString (1 + i), ?_, ?_, ?_⟩
    · rw [hnodes]
      exact List.mem_append_right _ hdD
    · exact hfr (1 + i) (by omega) (by omega)
    · rw [hedges]
      exact List.mem_append_right _ heE
  · intro hcon
    have hlen := congrArg (fun gg => gg.edges.length) hcon
    simp only [hedges, List.length_append] at hlen
    have hEpos : 0 < E.length := List.length_pos.mpr (List.ne_nil_of_mem heE)
    omega

/-- Witness for `claim_C10` at the two-node graph `A → B` (weight 5). -/
theorem claim_C10_witness :
    (∀ e ∈ (⟨["A", "B"], [("A", "B", 5)]⟩ : DiGraph).edges,
      e ∈ (buildcaseGraph 1 ⟨["A", "B"], [("A", "B", 5)]⟩
        "DV_forward").edges) ∧
    (∀ v ∈ (⟨["A", "B"], [("A", "B", 5)]⟩ : DiGraph).nodes,
      v ∈ (buildcaseGraph 1 ⟨["A", "B"], [("A", "B", 5)]⟩
        "DV_forward").nodes) ∧
    (∃ d, d ∈ (buildcaseGraph 1 ⟨["A", "B"], [("A", "B", 5)]⟩
        "DV_forward").nodes ∧
      d ∉ (⟨["A", "B"], [("A", "B", 5)]⟩ : DiGraph).nodes ∧
      ("A", d, 1) ∈ (buildcaseGraph 1 ⟨["A", "B"], [("A", "B", 5)]⟩
        "DV_forward").edges) ∧
    buildcaseGraph 1 ⟨["A", "B"], [("A", "B", 5)]⟩ "DV_forward" ≠
      ⟨["A", "B"], [("A", "B", 5)]⟩ :=
  claim_C10 1 ⟨["A", "B"], [("A", "B", 5)]⟩ "DV_forward"
    (by constructor
        · decide
        · decide)
    (by decide) (by decide) "A" (by decide) (by decide)

/-- C7: `rankbackward(V, G, C, w)` produces the same connection matrix and
the same gain matrix (same dimension, same entries everywhere in range) as
`rankforward(V, Gᵀ, Cᵀ, w)` — the two runs differ only in the dummy name
base, which the matrices do not record. -/
theorem claim_C7 (V : List String) (G C : Nat → Nat → ℚ) (w : ℚ)
    (hfrf : ∀ k,
      k < 1 + (buildgraph V (transposeM G) (transposeM C)).nodes.length →
      1 ≤ k → ("DV_forward" ++ toString k) ∉
        (buildgraph V (transposeM G) (transposeM C)).nodes)
    (hfrb : ∀ k,
      k < 1 + (buildgraph V (transposeM G) (transposeM C)).nodes.length →
      1 ≤ k → ("DV_backward" ++ toString k) ∉
        (buildgraph V (transposeM G) (transposeM C)).nodes)
    (hinjf : ∀ k,
      k < 1 + (buildgraph V (transposeM G) (transposeM C)).nodes.length →
      ∀ j,
      j < 1 + (buildgraph V (transposeM G) (transposeM C)).nodes.length →
      1 ≤ k → 1 ≤ j →
      "DV_forward" ++ toString k = "DV_forward" ++ toString j → k = j)
    (hinjb : ∀ k,
      k < 1 + (buildgraph V (transposeM G) (transposeM C)).nodes.length →
      ∀ j,
      j < 1 + (buildgraph V (transposeM G) (transposeM C)).nodes.length →
      1 ≤ k → 1 ≤ j →
      "DV_backward" ++ toString k = "DV_backward" ++ toString j → k = j) :
    (rankbackward V G C w).2.2.length =
      (rankforward V (transposeM G) (transposeM C) w).2.2.length ∧
    ∀ row col,
      row < (rankforward V (transposeM G) (transposeM C) w).2.2.length →
      col < (rankforward V (transposeM G) (transposeM C) w).2.2.length →
      (rankbackward V G C w).1 row col =
        (rankforward V (transposeM G) (transposeM C) w).1 row col ∧
      (rankbackward V G C w).2.1 row col =
        (rankforward V (transposeM G) (transposeM C) w).2.1 row col := by
  have hwf := WF_buildgraph V (transposeM G) (transposeM C)
  obtain ⟨hlenf, hentf⟩ := buildcase_entries w
    (buildgraph V (transposeM G) (transposeM C)) "DV_forward" hwf hfrf hinjf
  obtain ⟨hlenb, hentb⟩ := buildcase_entries w
    (buildgraph V (transposeM G) (transposeM C)) "DV_backward" hwf hfrb hinjb
  have hrf : rankforward V (transposeM G) (transposeM C) w =
      buildcase w (buildgraph V (transposeM G) (transposeM C))
        "DV_forward" := rfl
  have hrb : rankbackward V G C w =
      buildcase w (buildgraph V (transposeM G) (transposeM C))
        "DV_backward" := rfl
  constructor
  · rw [hrf, hrb, hlenf, hlenb]
  · intro row col hrow hcol
    rw [hrf, hlenf] at hrow hcol
    obtain ⟨hcf1, hcf2⟩ := hentf row col hrow hcol
    obtain ⟨hcb1, hcb2⟩ := hentb row col hrow hcol
    rw [hrf, hrb, hcf1, hcf2, hcb1, hcb2]
    exact ⟨rfl, rfl⟩

/-- Witness for `claim_C7` at a concrete 2-variable instance. -/
theorem claim_C7_witness :
    (rankbackward ["A", "B"] (fun r c => if r = 1 ∧ c = 0 then (3 : ℚ) else 0)
        (fun r c => if r = 1 ∧ c = 0 then (1 : ℚ) else 0) 7).2.2.length =
      (rankforward ["A", "B"]
        (transposeM (fun r c => if r = 1 ∧ c = 0 then (3 : ℚ) else 0))
        (transposeM (fun r c => if r = 1 ∧ c = 0 then (1 : ℚ) else 0))
        7).2.2.length ∧
    ∀ row col,
      row < (rankforward ["A", "B"]
        (transposeM (fun r c => if r = 1 ∧ c = 0 then (3 : ℚ) else 0))
        (transposeM (fun r c => if r = 1 ∧ c = 0 then (1 : ℚ) else 0))
        7).2.2.length →
      col < (rankforward ["A", "B"]
        (transposeM (fun r c => if r = 1 ∧ c = 0 then (3 : ℚ) else 0))
        (transposeM (fun r c => if r = 1 ∧ c = 0 then (1 : ℚ) else 0))
        7).2.2.length →
      (rankbackward ["A", "B"]
          (fun r c => if r = 1 ∧ c = 0 then (3 : ℚ) else 0)
          (fun r c => if r = 1 ∧ c = 0 then (1 : ℚ) else 0) 7).1 row col =
        (rankforward ["A", "B"]
          (transposeM (fun r c => if r = 1 ∧ c = 0 then (3 : ℚ) else 0))
          (transposeM (fun r c => if r = 1 ∧ c = 0 then (1 : ℚ) else 0))
          7).1 row col ∧
      (rankbackward ["A", "B"]
          (fun r c => if r = 1 ∧ c = 0 then (3 : ℚ) else 0)
          (fun r c => if r = 1 ∧ c = 0 then (1 : ℚ) else 0) 7).2.1 row col =
        (rankforward ["A", "B"]
          (transposeM (fun r c => if r = 1 ∧ c = 0 then (3 : ℚ) else 0))
          (transposeM (fun r c => if r = 1 ∧ c = 0 then (1 : ℚ) else 0))
          7).2.1 row col :=
  claim_C7 ["A", "B"] (fun r c => if r = 1 ∧ c = 0 then (3 : ℚ) else 0)
    (fun r c => if r = 1 ∧ c = 0 then (1 : ℚ) else 0) 7
    (by decide) (by decide) (by decide) (by decide)

/-! ### `calc_simple_rank` and friends (noderank.py) -/

/-- Oracle data standing for `np.linalg.eig(weightmatrix)`: `val j` is the
j-th eigenvalue as a complex number `(real, imag)` and `vec i j` the i-th
component of the j-th eigenvector. -/
structure EigData (n : Nat) where
  val : Fin n → ℚ × ℚ
  vec : Fin n → Fin n → ℚ × ℚ

/-- numpy's order on complex values: lexicographic on (real, imag). -/
def lexLt (a b : ℚ × ℚ) : Prop :=
  a.1 < b.1 ∨ (a.1 = b.1 ∧ a.2 < b.2)

instance (a b : ℚ × ℚ) : Decidable (lexLt a b) := by
  unfold lexLt; infer_instance

/-- Boolean form of numpy's complex comparison. -/
def cltB (a b : ℚ × ℚ) : Bool := decide (lexLt a b)

/-- The `np.argmax` selection: index of the first maximum under numpy's complex order
(strict improvement replaces the running best, so ties keep the earliest
index). -/
def argmaxC (n : Nat) (f : Fin n → ℚ × ℚ) (hn : 0 < n) : Fin n :=
  (List.finRange n).foldl
    (fun best i => if cltB (f best) (f i) then i else best) ⟨0, hn⟩

/-- Modulus of a numpy complex value (`abs`). -/
noncomputable def cabs (z : ℚ × ℚ) : ℝ :=
  Real.sqrt ((z.1 : ℝ) ^ 2 + (z.2 : ℝ) ^ 2)

/-- One iteration of the first column-normalization loop of
`calc_simple_rank`: if the column's sum of absolute values is zero, do
nothing; otherwise divide the column by that sum. -/
def normStep (n : Nat) (a : Nat → Nat → ℚ) (col : Nat) : Nat → Nat → ℚ :=
  if (∑ r ∈ Finset.range n, |a r col|) = 0 then a
  else fun r c =>
    if c = col then a r c / (∑ r' ∈ Finset.range n, |a r' col|) else a r c

/-- The guarded column normalization (`for col in range(n): ...` with the
zero-column check). -/
def normalizeColumns (n : Nat) (a : Nat → Nat → ℚ) : Nat → Nat → ℚ :=
  (List.range n).foldl (normStep n) a

/-- One iteration of the second (unguarded) column normalization of
`calc_simple_rank`, applied to the weight matrix. -/
def normStepAlways (n : Nat) (a : Nat → Nat → ℚ) (col : Nat) :
    Nat → Nat → ℚ :=
  fun r c =>
    if c = col then a r c / (∑ r' ∈ Finset.range n, |a r' col|) else a r c

/-- The unguarded column normalization. -/
def normalizeColumnsAlways (n : Nat) (a : Nat → Nat → ℚ) : Nat → Nat → ℚ :=
  (List.range n).foldl (normStepAlways n) a

/-- The diagnostic section of `calc_simple_rank` (the networkx centrality
cross-checks) builds `weightgraph` and `gaingraph` by reading
`weightmatrix[row, col]` and `gainmatrix[row, col]` for every
`(col, row)` pair of `enumerate(variables)` squared.  numpy raises
`IndexError` as soon as an accessed index falls outside the n×n
matrices; the two graphs never contribute to the returned value, so the
loop's only observable effect on the result is whether some access is
out of bounds. -/
def diagnosticRaises (n : Nat) (varlist : List String) : Bool :=
  varlist.enum.any (fun colp =>
    varlist.enum.any (fun rowp =>
      decide (n ≤ rowp.1 ∨ n ≤ colp.1)))

/-- Embedding of `calc_simple_rank(gainmatrix, variables, m)`: transpose, column
normalization with zero guard, damping blend with the uniform reset
matrix, unguarded re-normalization, eigenvector selection by `np.argmax`
over the eigenvalues, element-wise modulus, normalization to sum 1, and
`dict(zip(variables, rankarray_norm))` (the dictionary is the association
list; `zip` silently truncates at the shorter length).  Before the
`return`, the diagnostic centrality section runs: its unguarded matrix
reads raise `IndexError` when the variable list is longer than the matrix
dimension, so the function then fails instead of returning (the iterative
centrality computations themselves are modelled as non-failing). -/
noncomputable def calc_simple_rank (gainmatrix0 : Nat → Nat → ℚ) (n : Nat)
    (varlist : List String) (m : ℚ) (eig : EigData n) (hn : 0 < n) :
    Except String (List (String × ℝ)) :=
  let gainmatrix := transposeM gainmatrix0
  let gainmatrix := normalizeColumns n gainmatrix
  let resetmatrix : Nat → Nat → ℚ := fun _ _ => 1 / (n : ℚ)
  let weightmatrix : Nat → Nat → ℚ :=
    fun r c => m * gainmatrix r c + (1 - m) * resetmatrix r c
  let _weightmatrix := normalizeColumnsAlways n weightmatrix
  let maxeigindex := argmaxC n eig.val hn
  let rankarray : Fin n → ℝ := fun i => cabs (eig.vec i maxeigindex)
  let rankarray_norm : Fin n → ℝ :=
    fun i => (1 / ∑ j, rankarray j) * rankarray i
  let rankingdict := varlist.zip ((List.finRange n).map rankarray_norm)
  if diagnosticRaises n varlist then Except.error "IndexError"
  else Except.ok rankingdict

theorem diagnosticRaises_iff (n : Nat) (varlist : List String) :
    diagnosticRaises n varlist = true ↔ n < varlist.length := by
  unfold diagnosticRaises
  rw [List.any_eq_true]
  constructor
  · rintro ⟨colp, hcolp, hinner⟩
    rw [List.any_eq_true] at hinner
    obtain ⟨rowp, hrowp, hcond⟩ := hinner
    rw [decide_eq_true_eq] at hcond
    rw [List.mem_enum_iff_getElem?] at hcolp hrowp
    have h1 := (List.getElem?_eq_some.mp hcolp).1
    have h2 := (List.getElem?_eq_some.mp hrowp).1
    rcases hcond with h | h <;> omega
  · intro hlt
    refine ⟨(0, varlist.getD 0 ""), ?_, ?_⟩
    · rw [List.mem_enum_iff_getElem?]
      simp [List.getElem?_eq_getElem (by omega : 0 < varlist.length),
        List.getD_eq_getElem?_getD]
    · rw [List.any_eq_true]
      refine ⟨(n, varlist.getD n ""), ?_, ?_⟩
      · rw [List.mem_enum_iff_getElem?]
        simp [List.getElem?_eq_getElem hlt, List.getD_eq_getElem?_getD]
      · simp

/-- When the variable list is no longer than the matrix dimension, every
diagnostic access is in bounds and `calc_simple_rank` returns its ranking
dictionary. -/
theorem calc_simple_rank_ok (gm : Nat → Nat → ℚ) (n : Nat)
    (varlist : List String) (m : ℚ) (eig : EigData n) (hn : 0 < n)
    (hle : varlist.length ≤ n) :
    calc_simple_rank gm n varlist m eig hn =
      Except.ok (varlist.zip ((List.finRange n).map (fun i =>
        (1 / ∑ j : Fin n, cabs (eig.vec j (argmaxC n eig.val hn))) *
          cabs (eig.vec i (argmaxC n eig.val hn))))) := by
  have hdr : ¬ (diagnosticRaises n varlist = true) := by
    rw [diagnosticRaises_iff]
    omega
  show (if diagnosticRaises n varlist then Except.error "IndexError"
    else Except.ok _) = _
  rw [if_neg hdr]

/-- When the variable list is longer than the matrix dimension, the
diagnostic section reads out of bounds and `calc_simple_rank` raises
instead of returning. -/
theorem calc_simple_rank_err (gm : Nat → Nat → ℚ) (n : Nat)
    (varlist : List String) (m : ℚ) (eig : EigData n) (hn : 0 < n)
    (hgt : n < varlist.length) :
    calc_simple_rank gm n varlist m eig hn = Except.error "IndexError" := by
  have hdr : diagnosticRaises n varlist = true := by
    rw [diagnosticRaises_iff]
    exact hgt
  show (if diagnosticRaises n varlist then Except.error "IndexError"
    else Except.ok _) = _
  rw [if_pos hdr]

/-- Embedding of `calc_blended_rank(forwardrank, backwardrank, variablelist, alpha)`:
per-variable absolute blend, then division of every entry by the total. -/
def calc_blended_rank (forwardrank backwardrank : String → ℚ)
    (variablelist : List String) (alpha : ℚ) : List (String × ℚ) :=
  let rankingdict := variablelist.map (fun v =>
    (v, |(1 - alpha) * forwardrank v + alpha * backwardrank v|))
  let total := (rankingdict.map (fun p => p.2)).sum
  rankingdict.map (fun p => (p.1, p.2 / total))

/-- The inner loop of `calc_transient_importancediffs` for one variable:
successive differences against the running previous importance. -/
def diffLoop (v : String) : List (String → ℚ) → ℚ → List ℚ
  | [], _ => []
  | rd :: rest, prev => (rd v - prev) :: diffLoop v rest (rd v)

/-- Embedding of `calc_transient_importancediffs(rankingdicts, variablelist)`: per
variable, the base value is the box-0 score and the difference vector runs
over the remaining boxes. -/
def calc_transient_importancediffs (rankingdicts : List (String → ℚ))
    (variablelist : List String) :
    List (String × List ℚ) × List (String × ℚ) :=
  (variablelist.map (fun v =>
      (v, diffLoop v rankingdicts.tail
        ((rankingdicts.headD (fun _ => 0)) v))),
   variablelist.map (fun v => (v, (rankingdicts.headD (fun _ => 0)) v)))

/-! ### C3: the guarded column normalization -/

theorem foldNorm_char (n : Nat) (a : Nat → Nat → ℚ) :
    ∀ (L : List Nat) (b : Nat → Nat → ℚ),
    L.Nodup →
    (∀ row col, col ∈ L → b row col = a row col) →
    ∀ row col,
      (L.foldl (normStep n) b) row col =
        if col ∈ L then
          (if (∑ r ∈ Finset.range n, |a r col|) = 0 then a row col
           else a row col / (∑ r ∈ Finset.range n, |a r col|))
        else b row col := by
  intro L
  induction L with
  | nil =>
      intro b _ _ row col
      simp
  | cons c rest ih =>
      intro b hnd hagree row col
      have hcr : c ∉ rest := (List.nodup_cons.mp hnd).1
      have hndr : rest.Nodup := (List.nodup_cons.mp hnd).2
      have hsum : (∑ r ∈ Finset.range n, |b r c|) =
          (∑ r ∈ Finset.range n, |a r c|) :=
        Finset.sum_congr rfl (fun r _ => by
          rw [hagree r c (List.mem_cons_self _ _)])
      simp only [List.foldl_cons]
      by_cases hz : (∑ r ∈ Finset.range n, |a r c|) = 0
      · have hstep : normStep n b c = b := by
          unfold normStep
          rw [hsum, if_pos hz]
        rw [hstep]
        rw [ih b hndr
          (fun row' col' hcol' =>
            hagree row' col' (List.mem_cons_of_mem _ hcol')) row col]
        by_cases hcol : col ∈ rest
        · rw [if_pos hcol, if_pos (List.mem_cons_of_mem _ hcol)]
        · rw [if_neg hcol]
          by_cases hcolc : col = c
          · subst hcolc
            rw [if_pos (List.mem_cons_self _ _), if_pos hz]
            exact hagree row col (List.mem_cons_self _ _)
          · rw [if_neg (fun hmem => by
              rcases List.mem_cons.mp hmem with h | h
              · exact hcolc h
              · exact hcol h)]
      · have hstep : normStep n b c = fun r c' =>
            if c' = c then b r c' / (∑ r' ∈ Finset.range n, |a r' c|)
            else b r c' := by
          funext r c'
          simp only [normStep, hsum, if_neg hz]
        rw [hstep]
        rw [ih _ hndr
          (fun row' col' hcol' => by
            have hcc : col' ≠ c := fun hcc => hcr (hcc ▸ hcol')
            simp only [if_neg hcc]
            exact hagree row' col' (List.mem_cons_of_mem _ hcol')) row col]
        by_cases hcol : col ∈ rest
        · rw [if_pos hcol, if_pos (List.mem_cons_of_mem _ hcol)]
        · rw [if_neg hcol]
          by_cases hcolc : col = c
          · subst hcolc
            rw [if_pos (List.mem_cons_self _ _), if_neg hz]
            simp only [if_pos rfl]
            rw [hagree row col (List.mem_cons_self _ _)]
            simp
          · simp only [if_neg hcolc]
            rw [if_neg (fun hmem => by
              rcases List.mem_cons.mp hmem with h | h
              · exact hcolc h
              · exact hcol h)]

theorem normalizeColumns_char (n : Nat) (a : Nat → Nat → ℚ) (row col : Nat) :
    normalizeColumns n a row col =
      if col < n then
        (if (∑ r ∈ Finset.range n, |a r col|) = 0 then a row col
         else a row col / (∑ r ∈ Finset.range n, |a r col|))
      else a row col := by
  unfold normalizeColumns
  rw [foldNorm_char n a (List.range n) a (List.nodup_range n)
    (fun _ _ _ => rfl) row col]
  by_cases hcol : col < n
  · rw [if_pos (List.mem_range.mpr hcol), if_pos hcol]
  · rw [if_neg (fun h => hcol (List.mem_range.mp h)), if_neg hcol]

/-- C3: in `calc_simple_rank`'s guarded column normalization, a column
whose sum of absolute values is zero is left exactly unchanged, and a
column with nonzero absolute sum is divided entry-wise by that sum. -/
theorem claim_C3 (n : Nat) (a : Nat → Nat → ℚ) (col : Nat) (hcol : col < n) :
    ((∑ r ∈ Finset.range n, |a r col|) = 0 →
      ∀ row, row < n → normalizeColumns n a row col = a row col) ∧
    ((∑ r ∈ Finset.range n, |a r col|) ≠ 0 →
      ∀ row, row < n → normalizeColumns n a row col =
        a row col / (∑ r ∈ Finset.range n, |a r col|)) := by
  constructor
  · intro hz row _
    rw [normalizeColumns_char, if_pos hcol, if_pos hz]
  · intro hz row _
    rw [normalizeColumns_char, if_pos hcol, if_neg hz]

/-- Witness for `claim_C3`: a concrete 2×2 matrix whose column 0 is all
zero and whose column 1 has absolute sum 4. -/
theorem claim_C3_witness :
    ((∑ r ∈ Finset.range 2,
        |(fun r c => if c = 1 then (if r = 0 then (3 : ℚ) else -1) else 0)
          r 0|) = 0 →
      ∀ row, row < 2 → normalizeColumns 2
        (fun r c => if c = 1 then (if r = 0 then (3 : ℚ) else -1) else 0)
        row 0 =
        (fun r c => if c = 1 then (if r = 0 then (3 : ℚ) else -1) else 0)
          row 0) ∧
    ((∑ r ∈ Finset.range 2,
        |(fun r c => if c = 1 then (if r = 0 then (3 : ℚ) else -1) else 0)
          r 0|) ≠ 0 →
      ∀ row, row < 2 → normalizeColumns 2
        (fun r c => if c = 1 then (if r = 0 then (3 : ℚ) else -1) else 0)
        row 0 =
        (fun r c => if c = 1 then (if r = 0 then (3 : ℚ) else -1) else 0)
          row 0 /
        (∑ r ∈ Finset.range 2,
          |(fun r c => if c = 1 then (if r = 0 then (3 : ℚ) else -1) else 0)
            r 0|)) :=
  claim_C3 2
    (fun r c => if c = 1 then (if r = 0 then (3 : ℚ) else -1) else 0) 0
    (by decide)

/-! ### C2: eigenvector selection and dictionary pairing -/

theorem lexLt_trans {a b c : ℚ × ℚ} (h1 : lexLt a b) (h2 : lexLt b c) :
    lexLt a c := by
  rcases h1 with h1 | ⟨h1e, h1i⟩ <;> rcases h2 with h2 | ⟨h2e, h2i⟩
  · exact Or.inl (lt_trans h1 h2)
  · exact Or.inl (by rw [← h2e]; exact h1)
  · exact Or.inl (by rw [h1e]; exact h2)
  · exact Or.inr ⟨h1e.trans h2e, lt_trans h1i h2i⟩

theorem lexLt_cross {a b c : ℚ × ℚ} (h1 : lexLt a b) (h2 : ¬ lexLt c b) :
    lexLt a c := by
  unfold lexLt at h1 h2 ⊢
  push_neg at h2
  rcases h1 with h1 | ⟨h1e, h1i⟩
  · exact Or.inl (lt_of_lt_of_le h1 h2.1)
  · rcases lt_or_eq_of_le h2.1 with hbc | hbc
    · exact Or.inl (by rw [h1e]; exact hbc)
    · exact Or.inr ⟨by rw [h1e, hbc], lt_of_lt_of_le h1i (h2.2 hbc.symm)⟩

theorem lexLt_irrefl (a : ℚ × ℚ) : ¬ lexLt a a := by
  simp [lexLt]

theorem foldl_best_spec (n : Nat) (f : Fin n → ℚ × ℚ) :
    ∀ (L : List (Fin n)) (acc : Fin n),
    ¬ lexLt (f (L.foldl
      (fun best i => if cltB (f best) (f i) then i else best) acc)) (f acc) ∧
    ∀ i ∈ L, ¬ lexLt (f (L.foldl
      (fun best i => if cltB (f best) (f i) then i else best) acc)) (f i) := by
  intro L
  induction L with
  | nil =>
      intro acc
      exact ⟨lexLt_irrefl _, fun i hi => absurd hi (List.not_mem_nil i)⟩
  | cons i L ih =>
      intro acc
      simp only [List.foldl_cons]
      by_cases hb : cltB (f acc) (f i) = true
      · rw [if_pos hb]
        have hlt : lexLt (f acc) (f i) := of_decide_eq_true hb
        obtain ⟨h1, h2⟩ := ih i
        refine ⟨fun hcon => h1 (lexLt_trans hcon hlt), ?_⟩
        intro j hj
        rcases List.mem_cons.mp hj with rfl | hj'
        · exact h1
        · exact h2 j hj'
      · rw [if_neg hb]
        have hnlt : ¬ lexLt (f acc) (f i) :=
          fun hcon => hb (decide_eq_true hcon)
        obtain ⟨h1, h2⟩ := ih acc
        refine ⟨h1, ?_⟩
        intro j hj
        rcases List.mem_cons.mp hj with rfl | hj'
        · exact fun hcon => h1 (lexLt_cross hcon hnlt)
        · exact h2 j hj'

theorem argmaxC_spec (n : Nat) (f : Fin n → ℚ × ℚ) (hn : 0 < n)
    (j : Fin n) : ¬ lexLt (f (argmaxC n f hn)) (f j) :=
  (foldl_best_spec n f (List.finRange n) ⟨0, hn⟩).2 j (List.mem_finRange j)

theorem argmaxC_re_max (n : Nat) (f : Fin n → ℚ × ℚ) (hn : 0 < n)
    (j : Fin n) : (f j).1 ≤ (f (argmaxC n f hn)).1 := by
  have h := argmaxC_spec n f hn j
  unfold lexLt at h
  push_neg at h
  exact h.1

theorem lookup_zip {β : Type} :
    ∀ (ks : List String) (vs : List β) (i : Nat), ks.Nodup →
    i < ks.length → i < vs.length →
    (ks.zip vs).lookup (ks.getD i "") = vs[i]? := by
  intro ks
  induction ks with
  | nil =>
      intro vs i _ hik _
      simp at hik
  | cons k ks ih =>
      intro vs i hnd hik hiv
      rcases vs with _ | ⟨v, vs⟩
      · simp at hiv
      · rcases i with _ | i
        · simp [List.lookup]
        · have hk : k ∉ ks := (List.nodup_cons.mp hnd).1
          have hik' : i < ks.length := by simpa using hik
          have hiv' : i < vs.length := by simpa using hiv
          have hkey : ks.getD i "" ∈ ks := by
            rw [List.getD_eq_getElem?_getD, List.getElem?_eq_getElem hik']
            exact List.getElem_mem hik'
          have hne : ((ks.getD i "" == k) : Bool) = false :=
            beq_eq_false_iff_ne.mpr (fun h => hk (h ▸ hkey))
          simp only [List.getD_cons_succ, List.zip_cons_cons, List.lookup,
            hne]
          rw [show List.zipWith Prod.mk ks vs = ks.zip vs from rfl]
          rw [ih vs i (List.nodup_cons.mp hnd).2 hik' hiv']
          simp

/-- C2: `calc_simple_rank` selects the eigenvector whose eigenvalue is the
`np.argmax` of the eigenvalues — an eigenvalue of maximal real part —
takes component-wise moduli, normalizes by the total, and pairs score `i`
with `variables[i]`. -/
theorem claim_C2 (gm : Nat → Nat → ℚ) (n : Nat) (varlist : List String)
    (m : ℚ) (eig : EigData n) (hn : 0 < n)
    (hnd : varlist.Nodup) (hlen : varlist.length = n) :
    (∀ j : Fin n, (eig.val j).1 ≤ (eig.val (argmaxC n eig.val hn)).1) ∧
    (∃ d, calc_simple_rank gm n varlist m eig hn = Except.ok d ∧
      ∀ i : Fin n,
        d.lookup (varlist.getD (i : Nat) "") =
          some ((1 / ∑ j : Fin n,
              cabs (eig.vec j (argmaxC n eig.val hn))) *
            cabs (eig.vec i (argmaxC n eig.val hn)))) := by
  constructor
  · intro j
    exact argmaxC_re_max n eig.val hn j
  · refine ⟨varlist.zip ((List.finRange n).map (fun i =>
      (1 / ∑ j : Fin n, cabs (eig.vec j (argmaxC n eig.val hn))) *
        cabs (eig.vec i (argmaxC n eig.val hn)))),
      calc_simple_rank_ok gm n varlist m eig hn (le_of_eq hlen), ?_⟩
    intro i
    have hik : (i : Nat) < varlist.length := by rw [hlen]; exact i.isLt
    have hiv : (i : Nat) < ((List.finRange n).map (fun i =>
        (1 / ∑ j : Fin n, cabs (eig.vec j (argmaxC n eig.val hn))) *
          cabs (eig.vec i (argmaxC n eig.val hn)))).length := by
      simp [i.isLt]
    rw [lookup_zip varlist _ (i : Nat) hnd hik hiv]
    have hfr : (i : Nat) < (List.finRange n).length := by
      simp [i.isLt]
    rw [List.getElem?_map, List.getElem?_eq_getElem hfr]
    simp [List.getElem_finRange, Fin.eta]

/-- Witness for `claim_C2` at a concrete 1×1 instance. -/
theorem claim_C2_witness :
    (∀ j : Fin 1,
      ((⟨fun _ => (2, 0), fun _ _ => (1, 0)⟩ : EigData 1).val j).1 ≤
      ((⟨fun _ => (2, 0), fun _ _ => (1, 0)⟩ : EigData 1).val
        (argmaxC 1 (⟨fun _ => (2, 0), fun _ _ => (1, 0)⟩ : EigData 1).val
          Nat.one_pos)).1) ∧
    (∃ d, calc_simple_rank (fun _ _ => (1 : ℚ)) 1 ["A"] (17/20)
        ⟨fun _ => (2, 0), fun _ _ => (1, 0)⟩ Nat.one_pos = Except.ok d ∧
      ∀ i : Fin 1,
        d.lookup ((["A"] : List String).getD (i : Nat) "") =
          some ((1 / ∑ j : Fin 1,
              cabs ((⟨fun _ => (2, 0), fun _ _ => (1, 0)⟩ : EigData 1).vec j
                (argmaxC 1
                  (⟨fun _ => (2, 0), fun _ _ => (1, 0)⟩ : EigData 1).val
                  Nat.one_pos))) *
            cabs ((⟨fun _ => (2, 0), fun _ _ => (1, 0)⟩ : EigData 1).vec i
              (argmaxC 1
                (⟨fun _ => (2, 0), fun _ _ => (1, 0)⟩ : EigData 1).val
                Nat.one_pos)))) :=
  claim_C2 (fun _ _ => (1 : ℚ)) 1 ["A"] (17/20)
    ⟨fun _ => (2, 0), fun _ _ => (1, 0)⟩ Nat.one_pos (by decide) rfl

/-! ### C1: scores non-negative and summing to 1 -/

theorem cabs_nonneg (z : ℚ × ℚ) : 0 ≤ cabs z := Real.sqrt_nonneg _

theorem cabs_pos {z : ℚ × ℚ} (hz : z ≠ (0, 0)) : 0 < cabs z := by
  apply Real.sqrt_pos.mpr
  have h : z.1 ≠ 0 ∨ z.2 ≠ 0 := by
    by_contra hcon
    push_neg at hcon
    exact hz (Prod.ext hcon.1 hcon.2)
  rcases h with h | h
  · have h1 : ((z.1 : ℝ)) ≠ 0 := by exact_mod_cast h
    nlinarith [sq_pos_of_ne_zero h1, sq_nonneg ((z.2 : ℝ))]
  · have h2 : ((z.2 : ℝ)) ≠ 0 := by exact_mod_cast h
    nlinarith [sq_pos_of_ne_zero h2, sq_nonneg ((z.1 : ℝ))]

theorem map_fst_scale {β : Type} (l : List String) (F : String → β)
    (g : β → β) :
    ((l.map (fun v => (v, F v))).map (fun p => (p.1, g p.2))).map
      (fun p => p.1) = l := by
  induction l with
  | nil => rfl
  | cons x l ih =>
      simp only [List.map_cons]
      rw [ih]

theorem list_sum_div (l : List ℚ) (d : ℚ) :
    (l.map (fun x => x / d)).sum = l.sum / d := by
  induction l with
  | nil => simp
  | cons x l ih => simp [ih, add_div]

/-- C1: the dictionary returned by `calc_simple_rank` (when the variable
list matches the matrix dimension and the selected eigenvector column is
nonzero) maps each variable to a non-negative score and the scores sum to
exactly 1; likewise the dictionary returned by `calc_blended_rank` (when
the blended total is nonzero). -/
theorem claim_C1 (gm : Nat → Nat → ℚ) (n : Nat) (varlist : List String)
    (m : ℚ) (eig : EigData n) (hn : 0 < n)
    (hnd : varlist.Nodup) (hlen : varlist.length = n)
    (hvec : ∃ i : Fin n, eig.vec i (argmaxC n eig.val hn) ≠ (0, 0))
    (fr br : String → ℚ) (vl2 : List String) (alpha : ℚ) (hnd2 : vl2.Nodup)
    (htot : (vl2.map (fun v => |(1 - alpha) * fr v + alpha * br v|)).sum ≠
      0) :
    (∃ d, calc_simple_rank gm n varlist m eig hn = Except.ok d ∧
      (∀ p ∈ d, 0 ≤ p.2) ∧
      (d.map (fun p => p.2)).sum = 1 ∧
      d.map (fun p => p.1) = varlist) ∧
    ((∀ p ∈ calc_blended_rank fr br vl2 alpha, 0 ≤ p.2) ∧
      ((calc_blended_rank fr br vl2 alpha).map (fun p => p.2)).sum = 1 ∧
      (calc_blended_rank fr br vl2 alpha).map (fun p => p.1) = vl2) := by
  constructor
  · -- `calc_simple_rank`
    have htotpos : 0 < ∑ j : Fin n, cabs (eig.vec j (argmaxC n eig.val hn)) := by
      obtain ⟨i0, hi0⟩ := hvec
      exact Finset.sum_pos' (fun i _ => cabs_nonneg _)
        ⟨i0, Finset.mem_univ _, cabs_pos hi0⟩
    have hvslen : ((List.finRange n).map (fun i =>
        (1 / ∑ j : Fin n, cabs (eig.vec j (argmaxC n eig.val hn))) *
          cabs (eig.vec i (argmaxC n eig.val hn)))).length = n := by
      simp
    refine ⟨varlist.zip ((List.finRange n).map (fun i =>
        (1 / ∑ j : Fin n, cabs (eig.vec j (argmaxC n eig.val hn))) *
          cabs (eig.vec i (argmaxC n eig.val hn)))),
      calc_simple_rank_ok gm n varlist m eig hn (le_of_eq hlen),
      ?_, ?_, ?_⟩
    · intro p hp
      have hp2 := (List.of_mem_zip hp).2
      rcases List.mem_map.mp hp2 with ⟨i, -, hval⟩
      rw [← hval]
      have h1 : (0 : ℝ) ≤ 1 / ∑ j : Fin n,
          cabs (eig.vec j (argmaxC n eig.val hn)) := by positivity
      exact mul_nonneg h1 (cabs_nonneg _)
    · rw [List.map_snd_zip _ _ (by rw [hvslen, hlen])]
      rw [← Fin.sum_univ_def]
      rw [← Finset.mul_sum]
      exact one_div_mul_cancel (ne_of_gt htotpos)
    · rw [List.map_fst_zip _ _ (by rw [hvslen, hlen])]
  · -- `calc_blended_rank`
    have hdict : calc_blended_rank fr br vl2 alpha =
        (vl2.map (fun v =>
            (v, |(1 - alpha) * fr v + alpha * br v|))).map
          (fun p => (p.1, p.2 /
            ((vl2.map (fun v =>
              (v, |(1 - alpha) * fr v + alpha * br v|))).map
                (fun p => p.2)).sum)) := rfl
    have hvals : (vl2.map (fun v =>
        (v, |(1 - alpha) * fr v + alpha * br v|))).map (fun p => p.2) =
        vl2.map (fun v => |(1 - alpha) * fr v + alpha * br v|) := by
      rw [List.map_map]
      rfl
    have htotnn : (0 : ℚ) ≤
        (vl2.map (fun v => |(1 - alpha) * fr v + alpha * br v|)).sum := by
      apply List.sum_nonneg
      intro x hx
      rcases List.mem_map.mp hx with ⟨v, -, hval⟩
      rw [← hval]
      exact abs_nonneg _
    refine ⟨?_, ?_, ?_⟩
    · intro p hp
      rw [hdict] at hp
      rcases List.mem_map.mp hp with ⟨q, hq, hval⟩
      rcases List.mem_map.mp hq with ⟨v, -, hq2⟩
      rw [← hval]
      simp only
      rw [hvals]
      rw [← hq2]
      simp only
      exact div_nonneg (abs_nonneg _) htotnn
    · rw [hdict]
      rw [List.map_map]
      have hcomp : ((fun p : String × ℚ => p.2) ∘ (fun p : String × ℚ =>
          (p.1, p.2 /
            ((vl2.map (fun v =>
              (v, |(1 - alpha) * fr v + alpha * br v|))).map
                (fun p => p.2)).sum))) = (fun p : String × ℚ => p.2 /
            ((vl2.map (fun v =>
              (v, |(1 - alpha) * fr v + alpha * br v|))).map
                (fun p => p.2)).sum) := rfl
      rw [hcomp, hvals]
      have hmm : (vl2.map (fun v =>
          (v, |(1 - alpha) * fr v + alpha * br v|))).map
            (fun p : String × ℚ => p.2 /
              (vl2.map (fun v =>
                |(1 - alpha) * fr v + alpha * br v|)).sum) =
          (vl2.map (fun v => |(1 - alpha) * fr v + alpha * br v|)).map
            (fun x => x /
              (vl2.map (fun v =>
                |(1 - alpha) * fr v + alpha * br v|)).sum) := by
        rw [List.map_map, List.map_map]
        rfl
      rw [hmm, list_sum_div]
      exact div_self htot
    · rw [hdict]
      exact map_fst_scale vl2
        (fun v => |(1 - alpha) * fr v + alpha * br v|)
        (fun x => x / ((vl2.map (fun v =>
          (v, |(1 - alpha) * fr v + alpha * br v|))).map
            (fun p => p.2)).sum)

/-- Witness for `claim_C1` at concrete 1-variable instances. -/
theorem claim_C1_witness :
    (∃ d, calc_simple_rank (fun _ _ => (1 : ℚ)) 1 ["A"] (17/20)
        ⟨fun _ => (1, 0), fun _ _ => (1, 0)⟩ Nat.one_pos = Except.ok d ∧
      (∀ p ∈ d, 0 ≤ p.2) ∧
      (d.map (fun p => p.2)).sum = 1 ∧
      d.map (fun p => p.1) = ["A"]) ∧
    ((∀ p ∈ calc_blended_rank (fun _ => (1 : ℚ)) (fun _ => (1 : ℚ))
        ["A"] 0, 0 ≤ p.2) ∧
      ((calc_blended_rank (fun _ => (1 : ℚ)) (fun _ => (1 : ℚ))
        ["A"] 0).map (fun p => p.2)).sum = 1 ∧
      (calc_blended_rank (fun _ => (1 : ℚ)) (fun _ => (1 : ℚ))
        ["A"] 0).map (fun p => p.1) = ["A"]) :=
  claim_C1 (fun _ _ => (1 : ℚ)) 1 ["A"] (17/20)
    ⟨fun _ => (1, 0), fun _ _ => (1, 0)⟩ Nat.one_pos (by decide) rfl
    ⟨0, by decide⟩ (fun _ => (1 : ℚ)) (fun _ => (1 : ℚ)) ["A"] 0
    (by decide) (by simp)

/-! ### C6: no shape validation in `calc_simple_rank` -/

theorem map_fst_zip_eq_take {α β : Type} :
    ∀ (l1 : List α) (l2 : List β),
    (l1.zip l2).map Prod.fst = l1.take l2.length := by
  intro l1
  induction l1 with
  | nil => intro l2; simp
  | cons a l1 ih =>
      intro l2
      rcases l2 with _ | ⟨b, l2⟩
      · simp
      · simp [ih]

/-- C6 counterexample: with a square 2×2 gain matrix and the single
variable `"A"` — a dimension mismatch — `calc_simple_rank` raises no
error at all: every access of the diagnostic section stays inside the
2×2 matrices, and the function silently returns the ranking dictionary
`{"A": score0}` pairing the variables with the first `len(variables)`
normalized scores.  This refutes the claim that every dimension mismatch
fails fast with a fatal error rather than returning a result. -/
theorem claim_C6_counterexample :
    ∃ d, calc_simple_rank (fun _ _ => (1 : ℚ)) 2 ["A"] (17/20)
        ⟨fun _ => (1, 0), fun _ _ => (1, 0)⟩ Nat.zero_lt_two =
      Except.ok d ∧
      d.map (fun p => p.1) = ["A"] ∧ d.length = 1 := by
  refine ⟨(["A"] : List String).zip ((List.finRange 2).map (fun i =>
    (1 / ∑ j : Fin 2, cabs ((1 : ℚ), (0 : ℚ))) *
      cabs ((1 : ℚ), (0 : ℚ)))), ?_, rfl, rfl⟩
  exact calc_simple_rank_ok (fun _ _ => (1 : ℚ)) 2 ["A"] (17/20)
    ⟨fun _ => (1, 0), fun _ _ => (1, 0)⟩ Nat.zero_lt_two (by decide)

/-- C6 (amended): `calc_simple_rank` performs no explicit shape
validation.  When the variable list is longer than the (square) matrix
dimension it does abort with an `IndexError` — not a fail-fast check but
an unguarded out-of-bounds read in the diagnostic centrality section,
after the ranking dictionary has already been built — so it never
returns a truncated dictionary.  When the variable list is shorter than
the matrix dimension it silently returns a ranking dictionary covering
the whole variable list (each variable paired with the corresponding
entry among the first `len(variables)` normalized scores), with no error
despite the mismatch. -/
theorem claim_C6_amended (gm : Nat → Nat → ℚ) (n : Nat)
    (varlist : List String) (m : ℚ) (eig : EigData n) (hn : 0 < n) :
    (n < varlist.length →
      calc_simple_rank gm n varlist m eig hn =
        Except.error "IndexError") ∧
    (varlist.length ≤ n →
      ∃ d, calc_simple_rank gm n varlist m eig hn = Except.ok d ∧
        d.map (fun p => p.1) = varlist ∧
        d.length = varlist.length) := by
  constructor
  · intro hgt
    exact calc_simple_rank_err gm n varlist m eig hn hgt
  · intro hle
    refine ⟨varlist.zip ((List.finRange n).map (fun i =>
        (1 / ∑ j : Fin n, cabs (eig.vec j (argmaxC n eig.val hn))) *
          cabs (eig.vec i (argmaxC n eig.val hn)))),
      calc_simple_rank_ok gm n varlist m eig hn hle, ?_, ?_⟩
    · rw [map_fst_zip_eq_take]
      simp only [List.length_map, List.length_finRange]
      exact List.take_of_length_le hle
    · rw [List.length_zip]
      simp only [List.length_map, List.length_finRange]
      omega

/-- Witness for `claim_C6_amended` at the mismatched concrete instance
with more variables than matrix rows. -/
theorem claim_C6_amended_witness :
    (1 < (["A", "B"] : List String).length →
      calc_simple_rank (fun _ _ => (1 : ℚ)) 1 ["A", "B"] (17/20)
        ⟨fun _ => (1, 0), fun _ _ => (1, 0)⟩ Nat.one_pos =
        Except.error "IndexError") ∧
    ((["A", "B"] : List String).length ≤ 1 →
      ∃ d, calc_simple_rank (fun _ _ => (1 : ℚ)) 1 ["A", "B"] (17/20)
          ⟨fun _ => (1, 0), fun _ _ => (1, 0)⟩ Nat.one_pos =
        Except.ok d ∧
        d.map (fun p => p.1) = ["A", "B"] ∧
        d.length = (["A", "B"] : List String).length) :=
  claim_C6_amended (fun _ _ => (1 : ℚ)) 1 ["A", "B"] (17/20)
    ⟨fun _ => (1, 0), fun _ _ => (1, 0)⟩ Nat.one_pos

/-! ### C9: blended ranking at the extreme mixing weights -/

/-- C9: with `alpha = 0`, `calc_blended_rank` returns the forward ranking
restricted to the variable list, renormalized to sum 1; with `alpha = 1`,
the backward ranking likewise. -/
theorem claim_C9 (fr br : String → ℚ) (vl : List String) (hnd : vl.Nodup)
    (hf : ∀ v ∈ vl, 0 ≤ fr v) (hb : ∀ v ∈ vl, 0 ≤ br v)
    (htf : (vl.map fr).sum ≠ 0) (htb : (vl.map br).sum ≠ 0) :
    (calc_blended_rank fr br vl 0 =
        vl.map (fun v => (v, fr v / (vl.map fr).sum)) ∧
      ((calc_blended_rank fr br vl 0).map (fun p => p.2)).sum = 1) ∧
    (calc_blended_rank fr br vl 1 =
        vl.map (fun v => (v, br v / (vl.map br).sum)) ∧
      ((calc_blended_rank fr br vl 1).map (fun p => p.2)).sum = 1) := by
  have habs0 : ∀ v ∈ vl, |(1 - (0 : ℚ)) * fr v + 0 * br v| = fr v := by
    intro v hv
    rw [abs_of_nonneg (by simpa using hf v hv)]
    ring
  have habs1 : ∀ v ∈ vl, |(1 - (1 : ℚ)) * fr v + 1 * br v| = br v := by
    intro v hv
    rw [abs_of_nonneg (by simpa using hb v hv)]
    ring
  have hdict0 : vl.map (fun v => (v, |(1 - (0 : ℚ)) * fr v + 0 * br v|)) =
      vl.map (fun v => (v, fr v)) :=
    List.map_congr_left (fun v hv => by rw [habs0 v hv])
  have hdict1 : vl.map (fun v => (v, |(1 - (1 : ℚ)) * fr v + 1 * br v|)) =
      vl.map (fun v => (v, br v)) :=
    List.map_congr_left (fun v hv => by rw [habs1 v hv])
  have hvals : ∀ (F : String → ℚ),
      (vl.map (fun v => (v, F v))).map (fun p => p.2) = vl.map F := by
    intro F
    rw [List.map_map]
    rfl
  have hmain : ∀ (F : String → ℚ),
      (vl.map (fun v => (v, F v))).map (fun p =>
        (p.1, p.2 / ((vl.map (fun v => (v, F v))).map (fun p => p.2)).sum)) =
      vl.map (fun v => (v, F v / (vl.map F).sum)) := by
    intro F
    rw [List.map_map]
    refine List.map_congr_left (fun v hv => ?_)
    simp only [Function.comp]
    rw [hvals F]
  have hsum : ∀ (F : String → ℚ), (vl.map F).sum ≠ 0 →
      ((vl.map (fun v => (v, F v / (vl.map F).sum))).map
        (fun p => p.2)).sum = 1 := by
    intro F hF
    rw [hvals (fun v => F v / (vl.map F).sum)]
    have : vl.map (fun v => F v / (vl.map F).sum) =
        (vl.map F).map (fun x => x / (vl.map F).sum) := by
      rw [List.map_map]
      rfl
    rw [this, list_sum_div]
    exact div_self hF
  constructor
  · have h0 : calc_blended_rank fr br vl 0 =
        vl.map (fun v => (v, fr v / (vl.map fr).sum)) := by
      show (vl.map (fun v => (v, |(1 - (0 : ℚ)) * fr v + 0 * br v|))).map
          (fun p => (p.1, p.2 /
            ((vl.map (fun v =>
              (v, |(1 - (0 : ℚ)) * fr v + 0 * br v|))).map
                (fun p => p.2)).sum)) = _
      rw [hdict0]
      exact hmain fr
    exact ⟨h0, by rw [h0]; exact hsum fr htf⟩
  · have h1 : calc_blended_rank fr br vl 1 =
        vl.map (fun v => (v, br v / (vl.map br).sum)) := by
      show (vl.map (fun v => (v, |(1 - (1 : ℚ)) * fr v + 1 * br v|))).map
          (fun p => (p.1, p.2 /
            ((vl.map (fun v =>
              (v, |(1 - (1 : ℚ)) * fr v + 1 * br v|))).map
                (fun p => p.2)).sum)) = _
      rw [hdict1]
      exact hmain br
    exact ⟨h1, by rw [h1]; exact hsum br htb⟩

/-- Witness for `claim_C9` at a concrete 2-variable instance. -/
theorem claim_C9_witness :
    (calc_blended_rank (fun v => if v = "A" then (3 : ℚ) else 1)
          (fun _ => (2 : ℚ)) ["A", "B"] 0 =
        (["A", "B"] : List String).map (fun v =>
          (v, (if v = "A" then (3 : ℚ) else 1) /
            ((["A", "B"] : List String).map
              (fun v => if v = "A" then (3 : ℚ) else 1)).sum)) ∧
      ((calc_blended_rank (fun v => if v = "A" then (3 : ℚ) else 1)
          (fun _ => (2 : ℚ)) ["A", "B"] 0).map (fun p => p.2)).sum = 1) ∧
    (calc_blended_rank (fun v => if v = "A" then (3 : ℚ) else 1)
          (fun _ => (2 : ℚ)) ["A", "B"] 1 =
        (["A", "B"] : List String).map (fun v =>
          (v, (2 : ℚ) /
            ((["A", "B"] : List String).map (fun _ => (2 : ℚ))).sum)) ∧
      ((calc_blended_rank (fun v => if v = "A" then (3 : ℚ) else 1)
          (fun _ => (2 : ℚ)) ["A", "B"] 1).map (fun p => p.2)).sum = 1) :=
  claim_C9 (fun v => if v = "A" then (3 : ℚ) else 1) (fun _ => (2 : ℚ))
    ["A", "B"] (by decide) (by decide) (by decide)
    (by simp only [List.map_cons, List.map_nil, List.sum_cons, List.sum_nil,
      String.reduceEq, if_pos rfl, if_neg]
        <;> norm_num)
    (by norm_num)

/-! ### C8: transient importance differences -/

theorem lookup_map_self {β : Type} (l : List String) (F : String → β)
    (v : String) (hv : v ∈ l) :
    (l.map (fun x => (x, F x))).lookup v = some (F v) := by
  induction l with
  | nil => exact absurd hv (List.not_mem_nil v)
  | cons x l ih =>
      by_cases hvx : v = x
      · subst hvx
        simp [List.lookup]
      · have hne : ((v == x) : Bool) = false := beq_eq_false_iff_ne.mpr hvx
        simp only [List.map_cons, List.lookup, hne]
        exact ih (by
          rcases List.mem_cons.mp hv with h | h
          · exact absurd h hvx
          · exact h)

theorem diffLoop_length (v : String) :
    ∀ (L : List (String → ℚ)) (prev : ℚ),
    (diffLoop v L prev).length = L.length := by
  intro L
  induction L with
  | nil => intro prev; rfl
  | cons rd L ih => intro prev; simp [diffLoop, ih]

theorem diffLoop_getD (v : String) :
    ∀ (L : List (String → ℚ)) (prev : ℚ) (j : Nat), j < L.length →
    (diffLoop v L prev).getD j 0 =
      (L.getD j (fun _ => 0)) v -
        (if j = 0 then prev else (L.getD (j - 1) (fun _ => 0)) v) := by
  intro L
  induction L with
  | nil => intro prev j hj; simp at hj
  | cons rd L ih =>
      intro prev j hj
      rcases j with _ | j
      · simp [diffLoop]
      · simp only [diffLoop, List.getD_cons_succ]
        rw [ih (rd v) j (by simpa using hj)]
        rcases j with _ | j
        · simp
        · simp

theorem diffLoop_telescope (v : String) :
    ∀ (L : List (String → ℚ)) (prev : ℚ) (k : Nat), k ≤ L.length →
    prev + ((diffLoop v L prev).take k).sum =
      (if k = 0 then prev else (L.getD (k - 1) (fun _ => 0)) v) := by
  intro L
  induction L with
  | nil =>
      intro prev k hk
      have : k = 0 := Nat.le_zero.mp hk
      subst this
      simp
  | cons rd L ih =>
      intro prev k hk
      rcases k with _ | k
      · simp
      · simp only [diffLoop, List.take_succ_cons, List.sum_cons]
        have := ih (rd v) k (by simpa using hk)
        rcases k with _ | k
        · simp at this ⊢
        · simp only [Nat.succ_ne_zero, if_neg, List.getD_cons_succ] at this ⊢
          rw [show prev + (rd v - prev + ((diffLoop v L (rd v)).take
            (k + 1)).sum) = rd v + ((diffLoop v L (rd v)).take
              (k + 1)).sum from by ring]
          simpa using this

/-- C8: `calc_transient_importancediffs` returns, per variable, a
difference vector of length N−1 whose j-th entry is the score in box j+1
minus the score in box j, and a base-value dictionary with box-0 scores,
and base value plus the sum of the first k differences reconstructs the
box-k score. -/
theorem claim_C8 (rds : List (String → ℚ)) (vl : List String) (v : String)
    (k : Nat) (hne : rds ≠ []) (hv : v ∈ vl) (hk : k < rds.length) :
    ∃ dv bv,
      (calc_transient_importancediffs rds vl).1.lookup v = some dv ∧
      (calc_transient_importancediffs rds vl).2.lookup v = some bv ∧
      dv.length = rds.length - 1 ∧
      (∀ j, j + 1 < rds.length →
        dv.getD j 0 = (rds.getD (j + 1) (fun _ => 0)) v -
          (rds.getD j (fun _ => 0)) v) ∧
      bv + (dv.take k).sum = (rds.getD k (fun _ => 0)) v := by
  obtain ⟨rd0, rest, rfl⟩ := List.exists_cons_of_ne_nil hne
  refine ⟨diffLoop v rest (rd0 v), rd0 v, ?_, ?_, ?_, ?_, ?_⟩
  · exact lookup_map_self vl
      (fun v => diffLoop v ((rd0 :: rest).tail)
        (((rd0 :: rest).headD (fun _ => 0)) v)) v hv
  · exact lookup_map_self vl
      (fun v => ((rd0 :: rest).headD (fun _ => 0)) v) v hv
  · rw [diffLoop_length]
    simp
  · intro j hj
    have hjr : j < rest.length := by simpa using hj
    rw [diffLoop_getD v rest (rd0 v) j hjr]
    rcases j with _ | j
    · simp
    · simp
  · have hkr : k ≤ rest.length := by simpa using Nat.lt_succ_iff.mp hk
    have := diffLoop_telescope v rest (rd0 v) k hkr
    rw [this]
    rcases k with _ | k
    · simp
    · simp

/-- Witness for `claim_C8` at a concrete 3-box sequence. -/
theorem claim_C8_witness :
    ∃ dv bv,
      (calc_transient_importancediffs
        [fun _ => (1 : ℚ), fun _ => (3 : ℚ), fun _ => (2 : ℚ)]
        ["A"]).1.lookup "A" = some dv ∧
      (calc_transient_importancediffs
        [fun _ => (1 : ℚ), fun _ => (3 : ℚ), fun _ => (2 : ℚ)]
        ["A"]).2.lookup "A" = some bv ∧
      dv.length = ([fun _ => (1 : ℚ), fun _ => (3 : ℚ),
        fun _ => (2 : ℚ)] : List (String → ℚ)).length - 1 ∧
      (∀ j, j + 1 < ([fun _ => (1 : ℚ), fun _ => (3 : ℚ),
          fun _ => (2 : ℚ)] : List (String → ℚ)).length →
        dv.getD j 0 =
          (([fun _ => (1 : ℚ), fun _ => (3 : ℚ), fun _ => (2 : ℚ)] :
            List (String → ℚ)).getD (j + 1) (fun _ => 0)) "A" -
          (([fun _ => (1 : ℚ), fun _ => (3 : ℚ), fun _ => (2 : ℚ)] :
            List (String → ℚ)).getD j (fun _ => 0)) "A") ∧
      bv + (dv.take 2).sum =
        (([fun _ => (1 : ℚ), fun _ => (3 : ℚ), fun _ => (2 : ℚ)] :
          List (String → ℚ)).getD 2 (fun _ => 0)) "A" :=
  claim_C8 [fun _ => (1 : ℚ), fun _ => (3 : ℚ), fun _ => (2 : ℚ)]
    ["A"] "A" 2 (by simp) (by decide) (by decide)

end FaultMap
